import Mathlib

/-!
Verification of the claude-agents hook suite against its specification.

The Python hooks are shallowly embedded: Python strings become `List Char`
(written `Str` below), JSON objects become structures or association lists,
wall-clock times and floats become exact rationals, and the file system and
MCP side effects become explicit inputs and outputs.  Each definition mirrors
one function of `hooks/stop_digest.py`, `hooks/pretooluse_validate.py` or
`hooks/project_status.py`; the theorems at the end settle the frozen claims.
-/

set_option maxHeartbeats 1000000
set_option maxRecDepth 4000

namespace ClaudeAgents

/-- Python strings are modelled as lists of characters. -/
abbrev Str := List Char

/-- Embed a Lean string literal as a `Str`. -/
def str (s : String) : Str := s.toList

/-- The apostrophe character, kept out of string literals. -/
def apos : Char := Char.ofNat 39

/-- ASCII lower-casing of one character (model of `str.lower` on the ASCII
inputs the hooks deal with). -/
def asciiLower (c : Char) : Char :=
  if 'A' ≤ c ∧ c ≤ 'Z' then Char.ofNat (c.toNat + 32) else c

/-- Model of Python `s.lower()` (ASCII range). -/
def lowerStr (s : Str) : Str := s.map asciiLower

/-- `startsWithL pat s` holds when `s` begins with `pat`. -/
def startsWithL : Str → Str → Bool
  | [], _ => true
  | p :: ps, q :: qs => p = q && startsWithL ps qs
  | _, [] => false

/-- Model of Python `pat in s` (substring containment). -/
def containsL (pat : Str) : Str → Bool
  | [] => pat.isEmpty
  | c :: rest => startsWithL pat (c :: rest) || containsL pat rest

/-- Model of Python `s.endswith(pat)`. -/
def endsWithL (pat s : Str) : Bool := startsWithL pat.reverse s.reverse

/-- Model of Python `os.path.basename` / `pathlib.Path(p).name` for the
slash-separated paths the hooks handle: the part after the last slash. -/
def basenameL (p : Str) : Str :=
  match splitLast p with
  | none => p
  | some tail => tail
where
  /-- Returns the suffix after the last slash, or `none` if there is none. -/
  splitLast : Str → Option Str
  | [] => none
  | c :: rest =>
    match splitLast rest with
    | some t => some t
    | none => if c = '/' then some rest else none

/-! ## `hooks/pretooluse_validate.py` -/

namespace PreToolUse

/-- One record of the duplicate-read file hash cache
(`file_hashes.json`): `{hash, turn, duplicate_attempts}`.  The MD5 digest is
modelled as an abstract natural number. -/
structure CacheEntry where
  hash : Nat
  turn : Int
  duplicateAttempts : Nat
deriving DecidableEq, Repr

/-- The cache file is a JSON object: an insertion-ordered map from file path
to entry. -/
abbrev Cache := List (Str × CacheEntry)

/-- `CACHE_TURNS = 10`: warn if re-reading within this many turns. -/
def CACHE_TURNS : Int := 10

/-- `cache = {k: v for k, v in cache.items() if current_turn - v.get("turn", 0) <= CACHE_TURNS}` -/
def cleanCache (cache : Cache) (currentTurn : Int) : Cache :=
  cache.filter (fun kv => currentTurn - kv.2.turn ≤ CACHE_TURNS)

/-- Dictionary lookup `file_path in cache` / `cache[file_path]`. -/
def lookupCache (cache : Cache) (k : Str) : Option CacheEntry :=
  (cache.find? (fun kv => kv.1 = k)).map Prod.snd

/-- Dictionary update `cache[k] = e`: replaces in place if the key exists,
otherwise appends (Python dicts preserve insertion order). -/
def setCache (cache : Cache) (k : Str) (e : CacheEntry) : Cache :=
  if (cache.find? (fun kv => kv.1 = k)).isSome then
    cache.map (fun kv => if kv.1 = k then (k, e) else kv)
  else
    cache ++ [(k, e)]

/-- Outcome of `check_duplicate_read`: `False` (allow), `"WARN"` or
`"BLOCK"`, each blocking/warning value carrying the stderr text printed. -/
inductive ReadCheck where
  | allow
  | warn (msg : Str)
  | block (msg : Str)
deriving DecidableEq, Repr

/-- The separator line printed around gate messages: 61 equals signs. -/
def eqLine : Str := List.replicate 61 (Char.ofNat 61)

/-- The phrase `was already read and hasn't changed` of the hard-block
message. -/
def dupPhrase : Str :=
  str "was already read and hasn" ++ [apos] ++ str "t changed"

/-- Tail of the hard-block stderr message, after the file path
(`Duplicate read attempts: n`, guidance lines). -/
def blockMsgTail (n : Nat) : Str :=
  str "\nDuplicate read attempts: " ++ str (Nat.repr n) ++ str "\n\n" ++
  str "This file " ++ dupPhrase ++ str ".\n\n" ++
  str "Main Agent should:\n1. Reference the previous read content\n" ++
  str "2. Use Grep to search for specific patterns\n" ++
  str "3. Use Read with offset/limit for specific sections\n\n" ++ eqLine ++ str "\n"

/-- Head of the hard-block stderr message, up to the file path. -/
def blockMsgPre : Str :=
  str "\n" ++ eqLine ++ str "\n" ++ str "🚫 DUPLICATE READ BLOCKED\n" ++ eqLine ++
  str "\nFile: "

/-- The stderr message printed by the duplicate-read hard block, with the
printed lines joined by newlines. -/
def blockMessage (fp : Str) (n : Nat) : Str :=
  blockMsgPre ++ fp ++ blockMsgTail n

/-- The stderr warning for duplicate attempts 1 and 2. -/
def warnMessage (fp : Str) (n : Nat) (turnsAgo : Int) : Str :=
  str "\nDuplicate Read Warning (" ++ str (Nat.repr n) ++ str "/3)\n   File: " ++ fp ++
  str "\n   Previously read: " ++ str (Int.repr turnsAgo) ++ str " turns ago\n" ++
  str "   Content unchanged - reference previous read instead\n" ++
  str "   Will BLOCK after " ++ str (Nat.repr (3 - n)) ++ str " more attempts\n"

/-- Model of `check_duplicate_read(file_path)`.

Inputs beyond the path: whether the file exists, the hash of its current
content, the on-disk cache, and the current turn counter.  Returns the
check result together with the cache as persisted on disk afterwards
(`save_json` runs only on the paths that reach it in the source). -/
def checkDuplicateRead (fp : Str) (exists? : Bool) (hash : Nat)
    (cache : Cache) (currentTurn : Int) : ReadCheck × Cache :=
  let cleaned := cleanCache cache currentTurn
  if exists? then
    match lookupCache cleaned fp with
    | some cached =>
      if cached.hash = hash ∧ currentTurn - cached.turn ≤ CACHE_TURNS then
        let n := cached.duplicateAttempts + 1
        let cache1 := setCache cleaned fp { cached with duplicateAttempts := n }
        if n ≥ 3 then (.block (blockMessage fp n), cache1)
        else (.warn (warnMessage fp n (currentTurn - cached.turn)), cache1)
      else
        (.allow, setCache cleaned fp ⟨hash, currentTurn, 0⟩)
    | none => (.allow, setCache cleaned fp ⟨hash, currentTurn, 0⟩)
  else
    (.allow, cache)

/-- Exit code produced by `main` for a `Read` tool call as a function of the
duplicate-read check (the other `main` checks do not fire for `Read` except
the periodic typecheck, which is driven by the turn counter alone and is
modelled separately). -/
def readExitCode : ReadCheck → Nat
  | .block _ => 2
  | .warn _ => 1
  | .allow => 0

/-- `allowed_auto_create`: basenames of always-permitted markdown files. -/
def allowedAutoCreate : List Str :=
  [str "feature_map.md", str "notes.md", str "compaction.md",
   str "changelog.md", str "readme.md", str "claude.md"]

/-- Contents of `md_request_state.json`: a creation timestamp (in seconds,
`none` when missing or unparsable) and the approved file list. -/
structure MdState where
  timestamp : Option Int
  approvedFiles : List Str
deriving DecidableEq, Repr

/-- The `*PERMISSIVE*` sentinel entry. -/
def permissiveSentinel : Str := str "*PERMISSIVE*"

/-- One approval entry matches the write target when
`file_path.endswith(approved) or file_name == approved.lower() or approved in file_path.lower()`. -/
def approvalMatches (filePath fileName approved : Str) : Bool :=
  endsWithL approved filePath || (fileName = lowerStr approved) ||
    containsL approved (lowerStr filePath)

/-- Model of the markdown spam-prevention branch of `main` for a `Write`
whose `file_path` ends in `.md`.  Returns whether the write is allowed
together with the approval store as left on disk (`none` = no store file). -/
def mdGate (filePath : Str) (store : Option MdState) (now : Int) :
    Bool × Option MdState :=
  let fileName := lowerStr (basenameL filePath)
  if allowedAutoCreate.any (fun a => containsL a fileName) then
    (true, store)
  else
    match store with
    | none => (false, none)
    | some st =>
      match st.timestamp with
      | none => (false, some st)
      | some ts =>
        if now - ts ≤ 5 * 60 then
          if permissiveSentinel ∈ st.approvedFiles then (true, some st)
          else
            match st.approvedFiles.find? (approvalMatches filePath fileName) with
            | some a =>
              (true, some { st with approvedFiles := st.approvedFiles.erase a })
            | none => (false, some st)
        else (false, some st)

/-- Exit code of the markdown gate: blocked writes exit 2, allowed writes
fall through to the final `sys.exit(0)`. -/
def mdExitCode (allowed : Bool) : Nat := if allowed then 0 else 2

end PreToolUse

/-! ## `hooks/stop_digest.py` — ingestion queue -/

namespace StopDigest

/-- `INGEST_BACKOFF_BASE` default (seconds).  Python floats are modelled as
exact rationals. -/
def BACKOFF_BASE : ℚ := 5

/-- `INGEST_BACKOFF_CAP` default (seconds). -/
def BACKOFF_CAP : ℚ := 900

/-- `INGEST_MAX_ATTEMPTS` default. -/
def MAX_ATTEMPTS : Int := 6

/-- Model of `_compute_backoff_seconds(attempt_count)`.  The call to
`random.random()` is passed in as `rand` (a draw from `[0, 1)`). -/
def computeBackoffSeconds (attemptCount : Int) (rand : ℚ) : ℚ :=
  if attemptCount ≤ 0 then 0
  else
    let base := BACKOFF_BASE * 2 ^ (attemptCount - 1).toNat
    let jitter := base * (1 / 4) * (rand - 1 / 2)
    min (max (base + jitter) BACKOFF_BASE) BACKOFF_CAP

/-- What `ingest_digest_to_vector` handed back for a job, as consumed by
`process_ingest_queue`: `noResult` for Python `None` or a falsy dict,
`okResult` for a truthy dict carrying neither `"error"` nor `"skipped"`,
otherwise the `"skipped"` or `"error"` message. -/
inductive IngestResult where
  | noResult
  | okResult
  | skippedResult (msg : Str)
  | errorResult (msg : Str)
deriving DecidableEq, Repr

/-- `ok = bool(result) and (not result.get("error")) and (not result.get("skipped"))` -/
def resultOk : IngestResult → Bool
  | .okResult => true
  | _ => false

/-- `is_missing_creds = result and result.get("skipped") and "not configured" in str(result.get("skipped", ""))` -/
def resultMissingCreds : IngestResult → Bool
  | .skippedResult msg => containsL (str "not configured") msg
  | _ => false

/-- `err_text = (result or {}).get("error", "")` -/
def errText : IngestResult → Str
  | .errorResult msg => msg
  | _ => []

/-- The literal alternatives of the default `INGEST_NONFATAL_ERRORS_PATTERN`
regex `timed out|ECONN|ENETUNREACH|ETIMEDOUT|EAI_AGAIN|connection reset|timeout`. -/
def nonfatalLiterals : List Str :=
  [str "timed out", str "ECONN", str "ENETUNREACH", str "ETIMEDOUT",
   str "EAI_AGAIN", str "connection reset", str "timeout"]

/-- `is_retryable = bool(err_text and re.search(pattern, err_text, IGNORECASE))`:
the pattern is an alternation of literals, so it matches exactly when one
of them occurs case-insensitively in the error text. -/
def isRetryableError (err : Str) : Bool :=
  !err.isEmpty &&
    nonfatalLiterals.any (fun lit => containsL (lowerStr lit) (lowerStr err))

/-- `last_error` recorded in the fatal branch:
`(result or {}).get("error", "unknown error")`. -/
def fatalError : IngestResult → Str
  | .errorResult msg => msg
  | _ => str "unknown error"

/-- `last_error` recorded in the missing-credentials branch:
`result.get("skipped", "Vector RAG not configured")`. -/
def missingCredsError : IngestResult → Str
  | .skippedResult msg => msg
  | _ => str "Vector RAG not configured"

/-- A queued job as read by the drain pass, together with the environment
facts consumed while processing it: `attemptCount` is the stored
`attempt_count` (after `setdefault`), `elapsed` the wall-clock seconds since
`last_attempt` (`none` when `last_attempt` is absent, unparsable or zero, in
which case the source uses infinity), `rand` the jitter draw, and `result`
the outcome of the ingestion attempt. -/
structure Job where
  attemptCount : Int
  elapsed : Option ℚ
  rand : ℚ
  result : IngestResult
deriving DecidableEq, Repr

/-- A file of the queue directory: either unreadable JSON (removed on
sight) or a job. -/
inductive QueueEntry where
  | corrupt
  | good (j : Job)
deriving DecidableEq, Repr

/-- What happened to a processed job: its file was deleted (success), moved
to the dead-letter directory, or rewritten in place with the given
`attempt_count`, `status` and `last_error`. -/
inductive JobOutcome where
  | deleted
  | movedDead (attempts : Int)
  | requeued (attempts : Int) (status : Str) (lastError : Str)
deriving DecidableEq, Repr

/-- The per-job classification of `process_ingest_queue` (the body that runs
once the backoff check admits the job): increment `attempt_count`, attempt
ingestion, then branch on `ok` / `is_missing_creds` / `is_retryable` /
fatal. -/
def processJobAttempt (a : Int) (r : IngestResult) : JobOutcome :=
  let a1 := a + 1
  if resultOk r then .deleted
  else if resultMissingCreds r then
    .requeued (a1 - 1) (str "queued") (missingCredsError r)
  else if isRetryableError (errText r) then
    .requeued (a1 - 1) (str "queued")
      (if (errText r).isEmpty then str "retryable error" else errText r)
  else if a1 ≥ MAX_ATTEMPTS then .movedDead a1
  else .requeued a1 (str "queued") (fatalError r)

/-- User-facing warnings appended to `WARNINGS.md` by the drain pass. -/
inductive Warn where
  | ragDisabled
  | missingCreds
deriving DecidableEq, Repr

/-- The counters of the drain pass, its per-job outcome log, and the
warnings appended to `WARNINGS.md`. -/
structure DrainState where
  processed : Nat
  succeeded : Nat
  failed : Nat
  skippedBackoff : Nat
  skippedNoCreds : Nat
  records : List (Job × JobOutcome)
  warnings : List Warn
deriving DecidableEq, Repr

/-- Counters at the start of a drain pass. -/
def initDrain : DrainState :=
  { processed := 0, succeeded := 0, failed := 0, skippedBackoff := 0,
    skippedNoCreds := 0, records := [], warnings := [] }

/-- Processing of one job that passed the backoff check: bump `processed`,
classify the attempt, update the matching counter, and append the
missing-credentials warning when that branch is taken. -/
def processGoodJob (st : DrainState) (j : Job) : DrainState :=
  let out := processJobAttempt j.attemptCount j.result
  let st := { st with processed := st.processed + 1,
                      records := st.records ++ [(j, out)] }
  if resultOk j.result then { st with succeeded := st.succeeded + 1 }
  else if resultMissingCreds j.result then
    { st with skippedNoCreds := st.skippedNoCreds + 1,
              warnings := st.warnings ++ [.missingCreds] }
  else if isRetryableError (errText j.result) then st
  else { st with failed := st.failed + 1 }

/-- One loop iteration over a queue file: corrupt files are removed and
skipped, jobs still inside their backoff window count as `skipped_backoff`,
all other jobs are processed. -/
def drainStep (st : DrainState) : QueueEntry → DrainState
  | .corrupt => st
  | .good j =>
    let backoffNeeded := computeBackoffSeconds j.attemptCount j.rand
    match j.elapsed with
    | some e =>
      if e < backoffNeeded then
        { st with skippedBackoff := st.skippedBackoff + 1 }
      else processGoodJob st j
    | none => processGoodJob st j

/-- Environment of one drain pass: the `ENABLE_VECTOR_RAG` toggle, the
`max_jobs` cap, and an oracle telling whether the wall-clock
`time_budget_sec` check has tripped at loop iteration `k`. -/
structure DrainEnv where
  enableRag : Bool
  maxJobs : Nat
  budgetStop : Nat → Bool

/-- The `for name in files` loop of `process_ingest_queue`, with its
top-of-loop break on `processed >= max_jobs` or the time budget. -/
def drainLoop (env : DrainEnv) : List QueueEntry → Nat → DrainState → DrainState
  | [], _, st => st
  | e :: rest, k, st =>
    if st.processed ≥ env.maxJobs || env.budgetStop k then st
    else drainLoop env rest (k + 1) (drainStep st e)

/-- Model of `process_ingest_queue`: when `ENABLE_VECTOR_RAG` is false the
pass appends a warning and returns zero counters; otherwise it drains the
sorted queue listing. -/
def processIngestQueue (env : DrainEnv) (entries : List QueueEntry) : DrainState :=
  if env.enableRag then drainLoop env entries 0 initDrain
  else { initDrain with warnings := [.ragDisabled] }

/-- A `files` entry of a DIGEST: `{path, reason, anchors}` with every key
optional. -/
structure FileRef where
  path : Option Str
  reason : Option Str
  anchors : Option (List Str)
deriving DecidableEq, Repr

/-- A parsed DIGEST JSON object.  `none` in an optional field means the key
is absent; string fields may be present but empty (falsy in Python). -/
structure Digest where
  agent : Option Str
  taskId : Option Str
  summary : Option Str
  problem : Option Str
  symptom : Option Str
  question : Option Str
  rootCause : Option Str
  cause : Option Str
  solution : Option Str
  fix : Option Str
  outcome : Option Str
  results : Option Str
  impact : Option Str
  crossProjectLesson : Option Str
  lesson : Option Str
  decisions : List Str
  files : List FileRef
  contracts : List Str
  next : List Str
  evidence : List (Str × Str)
deriving DecidableEq, Repr

/-- `digest.get(key, "")`-style read of an optional string field. -/
def strOf (o : Option Str) : Str := o.getD []

/-- Python `a or b or ... or ""`: the first truthy (non-empty) string. -/
def pyOr (xs : List Str) : Str := (xs.find? (fun s => !s.isEmpty)).getD []

/-- `f.get("path", "").split("/")[-1]`. -/
def lastComponent (s : Str) : Str := basenameL s

/-- `", ".join` etc.: join with a separator. -/
def joinSep (sep : Str) : List Str → Str
  | [] => []
  | [x] => x
  | x :: xs => x ++ sep ++ joinSep sep xs

/-- `enumerate(l, 1)`. -/
def enum1 {α : Type} (l : List α) : List (Nat × α) :=
  l.enum.map (fun p => (p.1 + 1, p.2))

/-- The session header line:
`Session Summary: {agent} agent completed task '{task}'`. -/
def digestHeader (d : Digest) : Str :=
  str "Session Summary: " ++ d.agent.getD (str "UNKNOWN") ++
    str " agent completed task " ++ [apos] ++ d.taskId.getD (str "untagged") ++
    [apos]

/-- `problem = digest.get("problem") or digest.get("symptom") or digest.get("question") or ""`. -/
def problemText (d : Digest) : Str :=
  pyOr [strOf d.problem, strOf d.symptom, strOf d.question]

/-- The optional `Summary:` lines. -/
def summaryBlock (d : Digest) : List Str :=
  if !(strOf d.summary).isEmpty then [str "Summary: " ++ strOf d.summary, []]
  else []

/-- The `Problem:` line (falling back to the first decision). -/
def problemBlock (d : Digest) : List Str :=
  if !(problemText d).isEmpty then [str "Problem: " ++ problemText d]
  else if !d.decisions.isEmpty then [str "Problem: " ++ d.decisions.headD []]
  else []

/-- The `Root Cause:` line. -/
def rootCauseBlock (d : Digest) : List Str :=
  let rootCause := pyOr [strOf d.rootCause, strOf d.cause]
  if !rootCause.isEmpty then [str "Root Cause: " ++ rootCause] else []

/-- The `Solution:` line or numbered-decision fallback. -/
def solutionBlock (d : Digest) : List Str :=
  let solution := pyOr [strOf d.solution, strOf d.fix]
  if !solution.isEmpty then [str "Solution: " ++ solution]
  else if !d.decisions.isEmpty then
    str "Solution:" ::
      (enum1 d.decisions).map
        (fun p => str "  " ++ str (Nat.repr p.1) ++ str ". " ++ p.2)
  else []

/-- The `Outcome:` line or evidence fallback. -/
def outcomeBlock (d : Digest) : List Str :=
  let outcome := pyOr [strOf d.outcome, strOf d.results, strOf d.impact]
  if !outcome.isEmpty then [str "Outcome: " ++ outcome]
  else if !d.evidence.isEmpty then
    [str "Outcome: " ++
       joinSep (str ", ") (d.evidence.map (fun kv => kv.1 ++ str ": " ++ kv.2))]
  else []

/-- The `Cross-Project Lesson:` line. -/
def lessonBlock (d : Digest) : List Str :=
  let lesson := pyOr [strOf d.crossProjectLesson, strOf d.lesson]
  if !lesson.isEmpty then [str "\nCross-Project Lesson: " ++ lesson] else []

/-- The `Project Context:` lines (first three file basenames and a count of
the rest). -/
def filesBlock (d : Digest) : List Str :=
  if !d.files.isEmpty then
    (str "\nProject Context: Modified " ++
       joinSep (str ", ")
         ((d.files.take 3).map (fun f => lastComponent (strOf f.path)))) ::
    (if d.files.length > 3 then
       [str "  (and " ++ str (Nat.repr (d.files.length - 3)) ++
          str " more files)"]
     else [])
  else []

/-- The `API Contracts Affected:` lines. -/
def contractsBlock (d : Digest) : List Str :=
  if !d.contracts.isEmpty then
    str "\nAPI Contracts Affected:" ::
      (d.contracts.take 3).map (fun c => str "  - " ++ c)
  else []

/-- The `Recommended Next Steps:` lines. -/
def nextBlock (d : Digest) : List Str :=
  if !d.next.isEmpty then
    str "\nRecommended Next Steps:" ::
      (enum1 (d.next.take 3)).map
        (fun p => str "  " ++ str (Nat.repr p.1) ++ str ". " ++ p.2)
  else []

/-- The `text_parts` list assembled by `ingest_digest_to_vector`, in source
order: the header and a blank line, then the conditional blocks. -/
def buildTextParts (d : Digest) : List Str :=
  [digestHeader d, []] ++
  summaryBlock d ++ problemBlock d ++ rootCauseBlock d ++ solutionBlock d ++
  outcomeBlock d ++ lessonBlock d ++ filesBlock d ++ contractsBlock d ++
  nextBlock d

/-- `digest_text = "\n".join(text_parts)`: the canonical ingestion text. -/
def buildDigestText (d : Digest) : Str := joinSep (str "\n") (buildTextParts d)

/-- `MIN_DIGEST_LENGTH`. -/
def MIN_DIGEST_LENGTH : Nat := 50

/-- Result of `ingest_digest_to_vector`: a `{"skipped": msg, "reason": r}`
rejection, or the text sent to the `memory_ingest` MCP call (the call
itself and its metadata dictionary are I/O and are abstracted away). -/
inductive IngestOutcome where
  | skippedMsg (msg : Str) (reason : Option Str)
  | ingested (text : Str)
deriving DecidableEq, Repr

/-- Gate 1 of `ingest_digest_to_vector`:
`has_summary or has_problem_solution or has_decisions`. -/
def gate1 (d : Digest) : Bool :=
  !(strOf d.summary).isEmpty ||
  ((!(strOf d.problem).isEmpty || !(strOf d.symptom).isEmpty) &&
   (!(strOf d.solution).isEmpty || !(strOf d.fix).isEmpty)) ||
  !d.decisions.isEmpty

/-- All three content gates of `ingest_digest_to_vector`: gate 1 plus a
known agent (gate 2) and a meaningful task id (gate 3). -/
def contentGatesPass (d : Digest) : Bool :=
  gate1 d && d.agent.getD (str "UNKNOWN") ≠ str "UNKNOWN" &&
    !(d.taskId.getD (str "untagged") = str "untagged" ||
      (d.taskId.getD (str "untagged")).isEmpty)

/-- Model of `ingest_digest_to_vector(digest)`.  `credsOk` is the outcome of
`check_and_setup_vector_rag` (all three credential variables set). -/
def ingestDigestToVector (credsOk : Bool) (d : Digest) : IngestOutcome :=
  if !credsOk then
    .skippedMsg (str "Vector RAG not configured yet (setup in progress)") none
  else if !gate1 d then
    .skippedMsg
      (str "Quality gate failed: DIGEST must have summary, problem+solution, or decisions")
      (some (str "insufficient_content"))
  else if d.agent.getD (str "UNKNOWN") = str "UNKNOWN" then
    .skippedMsg (str "Quality gate failed: DIGEST must specify agent")
      (some (str "missing_agent"))
  else if d.taskId.getD (str "untagged") = str "untagged" ||
          (d.taskId.getD (str "untagged")).isEmpty then
    .skippedMsg (str "Quality gate failed: DIGEST must have meaningful task_id")
      (some (str "missing_task_id"))
  else
    let text := buildDigestText d
    if text.length < MIN_DIGEST_LENGTH then
      .skippedMsg
        (str "Quality gate failed: DIGEST text too short (" ++
           str (Nat.repr text.length) ++ str " < 50 chars)")
        (some (str "insufficient_length"))
    else .ingested text

/-! ### `refresh_wsi` -/

/-- `WSI_CAP` default. -/
def WSI_CAP : Nat := 10

/-- One item of `wsi.json` (`path` is the empty string when the JSON record
lacks it or it is falsy). -/
structure WsiItem where
  path : Str
  reason : Str
  anchors : List Str
  lastAccess : Str
deriving DecidableEq, Repr

/-- The `seen` map of `refresh_wsi`:
`{item["path"]: i for i, item in enumerate(current) if item.get("path")}` —
for a truthy path, the index of its last occurrence. -/
def seenIdx : List WsiItem → Str → Option Nat
  | [], _ => none
  | it :: rest, p =>
    match seenIdx rest p with
    | some i => some (i + 1)
    | none => if it.path = p ∧ !p.isEmpty then some 0 else none

/-- The file-loop of `refresh_wsi`: replace at the `seen` index or append. -/
def wsiFileStep (orig : List WsiItem) (timestamp : Str)
    (cur : List WsiItem) (f : FileRef) : List WsiItem :=
  let p := strOf f.path
  if p.isEmpty then cur
  else
    let item : WsiItem :=
      ⟨p, f.reason.getD (str "touched"), f.anchors.getD [], timestamp⟩
    match seenIdx orig p with
    | some i => cur.set i item
    | none => cur ++ [item]

/-- The RAG-suggestion loop of `refresh_wsi`: append the path when truthy
and not in `seen`. -/
def wsiRagStep (orig : List WsiItem) (timestamp : Str)
    (cur : List WsiItem) (p : Str) : List WsiItem :=
  if !p.isEmpty ∧ (seenIdx orig p).isNone then
    cur ++ [⟨p, str "rag-suggest", [], timestamp⟩]
  else cur

/-- The WSI item list built by `refresh_wsi` before the cap is applied. -/
def refreshWsiFull (items : List WsiItem) (digestFiles : List FileRef)
    (ragPaths : Option (List Str)) (timestamp : Str) : List WsiItem :=
  let cur := digestFiles.foldl (wsiFileStep items timestamp) items
  match ragPaths with
  | none => cur
  | some ps => (ps.take 3).foldl (wsiRagStep items timestamp) cur

/-- Model of `refresh_wsi`: the deduplicate-and-append pass followed by the
`current[-WSI_CAP:]` cap.  `ragPaths` is `none` when `rag_suggestions` is
absent or carries no `results` key. -/
def refreshWsi (items : List WsiItem) (digestFiles : List FileRef)
    (ragPaths : Option (List Str)) (timestamp : Str) : List WsiItem :=
  let cur := refreshWsiFull items digestFiles ragPaths timestamp
  if cur.length > WSI_CAP then cur.drop (cur.length - WSI_CAP) else cur

/-! ### `rotate_notes`

The rotation regex `## \[\d{4}-\d{2}-\d{2}.*?\].*?(?=\n## |\Z)` (DOTALL) is
an alternation-free lazy pattern, so `re.findall` admits a direct scanner
model: find the first position matching the header prefix `## [dddd-dd-dd`,
take the lazy `.*?\]` to the first `]`, then the lazy `.*?` up to the first
`\n## ` lookahead position (or the end of the text), and resume scanning at
the match end.  `\d` is modelled as an ASCII digit. -/

/-- Does the text begin with the header prefix `## [dddd-dd-dd`? -/
def secStartB : Str → Bool
  | '#' :: '#' :: ' ' :: '[' :: a :: b :: c :: d :: '-' :: e :: f :: '-' :: g :: h :: _ =>
    a.isDigit && b.isDigit && c.isDigit && d.isDigit && e.isDigit &&
      f.isDigit && g.isDigit && h.isDigit
  | _ => false

/-- Does the text begin with the lookahead token `\n## `? -/
def htokB : Str → Bool
  | '\n' :: '#' :: '#' :: ' ' :: _ => true
  | _ => false

/-- Split `t` at the first position whose suffix satisfies `p`:
`some (x, y)` with `t = x ++ y`, `p y` true and `x` shortest. -/
def findSplit (p : Str → Bool) : Str → Option (Str × Str)
  | [] => if p [] then some ([], []) else none
  | c :: rest =>
    if p (c :: rest) then some ([], c :: rest)
    else (findSplit p rest).map (fun q => (c :: q.1, q.2))

/-- Split at the first occurrence of `ch`: `some (x, y)` with
`t = x ++ ch :: y` and `ch` not in `x`. -/
def splitAtChar (ch : Char) : Str → Option (Str × Str)
  | [] => none
  | c :: rest =>
    if c = ch then some ([], rest)
    else (splitAtChar ch rest).map (fun q => (c :: q.1, q.2))

theorem findSplit_append (p : Str → Bool) :
    ∀ t x y, findSplit p t = some (x, y) → t = x ++ y := by
  intro t
  induction t with
  | nil =>
    intro x y h
    unfold findSplit at h
    split at h
    · simp only [Option.some.injEq, Prod.mk.injEq] at h
      rw [← h.1, ← h.2]; rfl
    · exact absurd h (by simp)
  | cons c rest ih =>
    intro x y h
    unfold findSplit at h
    split at h
    · simp only [Option.some.injEq, Prod.mk.injEq] at h
      rw [← h.1, ← h.2]; rfl
    · cases hfr : findSplit p rest with
      | none => rw [hfr] at h; exact absurd h (by simp)
      | some q =>
        rw [hfr] at h
        simp only [Option.map, Option.some.injEq, Prod.mk.injEq] at h
        obtain ⟨hx, hy⟩ := h
        rw [← hx, ← hy, List.cons_append]
        rw [← ih q.1 q.2 (by rw [hfr])]

theorem findSplit_prop (p : Str → Bool) :
    ∀ t x y, findSplit p t = some (x, y) → p y = true := by
  intro t
  induction t with
  | nil =>
    intro x y h
    unfold findSplit at h
    split at h
    · simp only [Option.some.injEq, Prod.mk.injEq] at h
      rw [← h.2]; assumption
    · exact absurd h (by simp)
  | cons c rest ih =>
    intro x y h
    unfold findSplit at h
    split at h
    · simp only [Option.some.injEq, Prod.mk.injEq] at h
      rw [← h.2]; assumption
    · cases hfr : findSplit p rest with
      | none => rw [hfr] at h; exact absurd h (by simp)
      | some q =>
        rw [hfr] at h
        simp only [Option.map, Option.some.injEq, Prod.mk.injEq] at h
        obtain ⟨hx, hy⟩ := h
        rw [← hy]
        exact ih q.1 q.2 (by rw [hfr])

theorem splitAtChar_append (ch : Char) :
    ∀ t x y, splitAtChar ch t = some (x, y) → t = x ++ ch :: y := by
  intro t
  induction t with
  | nil => intro x y h; simp [splitAtChar] at h
  | cons c rest ih =>
    intro x y h
    unfold splitAtChar at h
    split at h
    · rename_i hc
      simp only [Option.some.injEq, Prod.mk.injEq] at h
      rw [← h.1, ← h.2]
      simp [hc]
    · cases hfr : splitAtChar ch rest with
      | none => rw [hfr] at h; exact absurd h (by simp)
      | some q =>
        rw [hfr] at h
        simp only [Option.map, Option.some.injEq, Prod.mk.injEq] at h
        obtain ⟨hx, hy⟩ := h
        rw [← hx, ← hy, List.cons_append]
        rw [← ih q.1 q.2 (by rw [hfr])]

theorem secStartB_length {b : Str} (h : secStartB b = true) : 14 ≤ b.length := by
  unfold secStartB at h
  split at h
  · simp
  · simp at h

/-- One resumption loop of `re.findall` for the rotation regex, with a fuel
bound on the number of matches.  Each match strictly shortens the remaining
text, so `length + 1` fuel never runs out. -/
def scanSecsF : Nat → Str → List Str
  | 0, _ => []
  | fuel + 1, t =>
    match findSplit secStartB t with
    | none => []
    | some (_, b) =>
      match splitAtChar ']' (b.drop 14) with
      | none => []
      | some (c, d) =>
        match findSplit htokB d with
        | none => [b.take 14 ++ c ++ [']'] ++ d]
        | some (e, f) => (b.take 14 ++ c ++ [']'] ++ e) :: scanSecsF fuel f

/-- `re.findall` for the rotation regex: the list of matched sections. -/
def scanSecs (t : Str) : List Str := scanSecsF (t.length + 1) t

/-- The preamble written by `rotate_notes` when it rewrites `NOTES.md`. -/
def NOTES_HEADER : Str :=
  str "# NOTES (living state)\n\nLast 20 digests. Older entries archived to logs/notes-archive/.\n\n"

/-- The header of an archive file. -/
def ARCHIVE_HEADER : Str := str "# Archived NOTES\n\n"

/-- Model of `rotate_notes` as a function of the journal text: the rewritten
journal plus the archive file content (`none` when no archive is written).
At 20 sections or fewer the function returns the text unchanged without
rewriting. -/
def rotateNotes (text : Str) : Str × Option Str :=
  let sections := scanSecs text
  if sections.length ≤ 20 then (text, none)
  else
    let toArchive := sections.take (sections.length - 20)
    let toKeep := sections.drop (sections.length - 20)
    (NOTES_HEADER ++ toKeep.flatten, some (ARCHIVE_HEADER ++ toArchive.flatten))

/-! ### Exit codes of the Stop coordinator `main` -/

/-- The branch conditions met by one run of `stop_digest.main` on a stdin
payload (CLI maintenance modes return without calling `sys.exit` and the
interpreter exits 0). -/
structure StopRun where
  /-- `sys.argv[1]` selected a maintenance mode (`--process-queue` etc.). -/
  cliMode : Bool
  /-- the stdin payload parsed as JSON. -/
  jsonValid : Bool
  /-- a DIGEST block was found in the payload text keys. -/
  payloadDigest : Bool
  /-- the payload fast path wrote NOTES/WSI and enqueued without raising. -/
  fastPathOk : Bool
  /-- `transcript_path` exists and exceeds the tail window size. -/
  largeTranscript : Bool
  /-- the tail scan found a DIGEST and processed it without raising. -/
  tailDigestOk : Bool
  /-- `STOP_TAIL_FAST_ONLY` skip of the full parse fired. -/
  tailFastOnlySkip : Bool
  /-- the soft time budget expired with no DIGEST found. -/
  timeBudgetExit : Bool
  /-- a DIGEST was found in the transcript or fallback text. -/
  digestFound : Bool
  /-- `append_notes` / `refresh_wsi` completed without raising. -/
  writesOk : Bool

/-- The exit code of `stop_digest.main`, following its `sys.exit` sites in
source order. -/
def stopMainExit (e : StopRun) : Nat :=
  if e.cliMode then 0
  else if !e.jsonValid then 1
  else if e.payloadDigest && e.fastPathOk then 0
  else if e.largeTranscript && e.tailDigestOk then 0
  else if e.largeTranscript && e.tailFastOnlySkip then 0
  else if !e.digestFound && e.timeBudgetExit then 0
  else if !e.digestFound then 0
  else if e.writesOk then 0
  else 1

end StopDigest

/-! ## `hooks/project_status.py` -/

namespace ProjectStatus

/-- `PROJECT_STATUS_TAG_START`. -/
def startTag : Str := str "<project_status>"

/-- `PROJECT_STATUS_TAG_END`. -/
def endTag : Str := str "</project_status>"

/-- The anchor tag after which the block is inserted. -/
def ceTag : Str := str "</context_engineering>"

/-- Split `t` around the first occurrence of the substring `pat`:
`some (x, y)` with `t = x ++ pat ++ y` and `x` shortest. -/
def splitOnSub (pat t : Str) : Option (Str × Str) :=
  (StopDigest.findSplit (fun s => startsWithL pat s) t).map
    (fun q => (q.1, q.2.drop pat.length))

/-- The global non-greedy `re.sub` that removes every
`<project_status>...</project_status>` span: each match runs from a start
tag to the first end tag after it (a start tag with no following end tag
matches nothing, and then no later start can match either). -/
def removeBlocksAux : Nat → Str → Str
  | 0, t => t
  | fuel + 1, t =>
    match splitOnSub startTag t with
    | none => t
    | some (a, r) =>
      match splitOnSub endTag r with
      | none => t
      | some (_, rest) => a ++ removeBlocksAux fuel rest

/-- `re.sub(START..END, "", md_text, DOTALL)`. -/
def removeStatusBlocks (t : Str) : Str := removeBlocksAux t.length t

/-- Model of `_insert_or_replace_block(md_text, block_text)`. -/
def insertOrReplaceBlock (mdText blockText : Str) : Str :=
  let cleaned := removeStatusBlocks mdText
  match splitOnSub ceTag cleaned with
  | some (a, b) => a ++ ceTag ++ str "\n\n" ++ blockText ++ str "\n" ++ b
  | none => blockText ++ str "\n" ++ cleaned

/-- `_render_status_block`: `"\n".join(lines) + "\n"` where `lines` starts
with the start tag, ends with the end tag, and carries the rendered body in
between. -/
def renderedBlock (bodyLines : List Str) : Str :=
  StopDigest.joinSep (str "\n") (startTag :: bodyLines ++ [endTag]) ++ str "\n"

/-- Model of the write step of `update_claude_md` for a fixed collected
status (hence fixed rendered block): returns the resulting file content and
whether the file was rewritten.  The `changed` flag compares SHA-256 hashes
in the source, modelled as content equality. -/
def updateClaudeMd (block before : Str) : Str × Bool :=
  let newText := insertOrReplaceBlock before block
  if newText = before then (before, false) else (newText, true)

end ProjectStatus

/-! ## Queue lemmas -/

namespace StopDigest

theorem processGoodJob_records (st : DrainState) (j : Job) :
    (processGoodJob st j).records =
      st.records ++ [(j, processJobAttempt j.attemptCount j.result)] := by
  unfold processGoodJob
  split
  · rfl
  · split
    · rfl
    · split <;> rfl

/-- Every record added by the drain loop pairs a job with its canonical
per-attempt outcome. -/
def RecordsOk (st : DrainState) : Prop :=
  ∀ j out, (j, out) ∈ st.records →
    out = processJobAttempt j.attemptCount j.result

theorem recordsOk_processGoodJob {st : DrainState} (h : RecordsOk st) (j : Job) :
    RecordsOk (processGoodJob st j) := by
  intro j1 out1 hmem
  rw [processGoodJob_records] at hmem
  rcases List.mem_append.mp hmem with hmem | hmem
  · exact h j1 out1 hmem
  · simp at hmem
    obtain ⟨hj, ho⟩ := hmem
    subst hj
    exact ho

theorem recordsOk_drainStep {st : DrainState} (h : RecordsOk st) (e : QueueEntry) :
    RecordsOk (drainStep st e) := by
  cases e with
  | corrupt => exact h
  | good j =>
    have hgood : drainStep st (.good j) =
        (match j.elapsed with
         | some e =>
           if e < computeBackoffSeconds j.attemptCount j.rand then
             { st with skippedBackoff := st.skippedBackoff + 1 }
           else processGoodJob st j
         | none => processGoodJob st j) := rfl
    rw [hgood]
    cases j.elapsed with
    | none => exact recordsOk_processGoodJob h j
    | some e =>
      dsimp only
      split
      · intro j1 out1 hmem; exact h j1 out1 hmem
      · exact recordsOk_processGoodJob h j

theorem recordsOk_drainLoop (env : DrainEnv) :
    ∀ (entries : List QueueEntry) (k : Nat) (st : DrainState),
      RecordsOk st → RecordsOk (drainLoop env entries k st) := by
  intro entries
  induction entries with
  | nil => intro k st h; exact h
  | cons e rest ih =>
    intro k st h
    unfold drainLoop
    split
    · exact h
    · exact ih (k + 1) (drainStep st e) (recordsOk_drainStep h e)

theorem recordsOk_processIngestQueue (env : DrainEnv) (entries : List QueueEntry) :
    RecordsOk (processIngestQueue env entries) := by
  unfold processIngestQueue
  split
  · exact recordsOk_drainLoop env entries 0 initDrain (by intro j out h; simp [initDrain] at h)
  · intro j out h; simp [initDrain] at h

/-- The per-attempt classification of `processJobAttempt`. -/
theorem processJobAttempt_classify (a : Int) (r : IngestResult) :
    (resultOk r = true → processJobAttempt a r = .deleted) ∧
    ((resultMissingCreds r = true ∨ isRetryableError (errText r) = true) →
      ∃ msg, processJobAttempt a r = .requeued a (str "queued") msg) ∧
    (resultOk r = false → resultMissingCreds r = false →
     isRetryableError (errText r) = false →
      ((processJobAttempt a r = .movedDead (a + 1) ↔ MAX_ATTEMPTS ≤ a + 1) ∧
       (a + 1 < MAX_ATTEMPTS →
         processJobAttempt a r =
           .requeued (a + 1) (str "queued") (fatalError r)) ∧
       (a = MAX_ATTEMPTS - 1 → processJobAttempt a r = .movedDead MAX_ATTEMPTS))) := by
  refine ⟨?_, ?_, ?_⟩
  · intro hok
    unfold processJobAttempt
    rw [hok]
    rfl
  · intro hcase
    have hok : resultOk r = false := by
      rcases hcase with hmc | hre
      · cases r <;> simp_all [resultOk, resultMissingCreds]
      · cases r <;> simp_all [resultOk, isRetryableError, errText]
    by_cases hmc : resultMissingCreds r = true
    · refine ⟨missingCredsError r, ?_⟩
      simp only [processJobAttempt, hok, hmc]
      simp
    · have hre : isRetryableError (errText r) = true := by tauto
      rw [Bool.not_eq_true] at hmc
      refine ⟨if (errText r).isEmpty then str "retryable error" else errText r, ?_⟩
      simp only [processJobAttempt, hok, hmc, hre]
      simp
  · intro hok hmc hre
    unfold processJobAttempt
    rw [hok, hmc, hre]
    simp only [Bool.false_eq_true, if_false]
    constructor
    · constructor
      · intro h
        by_contra hlt
        push_neg at hlt
        rw [if_neg (by omega)] at h
        exact absurd h (by simp)
      · intro h
        rw [if_pos (by omega)]
    · constructor
      · intro hlt
        rw [if_neg (by omega)]
      · intro ha
        rw [if_pos (by simp [MAX_ATTEMPTS] at ha ⊢; omega)]
        rw [ha]
        simp [MAX_ATTEMPTS]

end StopDigest

/-! ## Duplicate-read cache lemmas -/

namespace PreToolUse

/-- No entry of the cache is keyed by `fp`. -/
def KeysNe (c : Cache) (fp : Str) : Prop := ∀ kv ∈ c, kv.1 ≠ fp

theorem keysNe_cleanCache {c : Cache} {fp : Str} (h : KeysNe c fp) (t : Int) :
    KeysNe (cleanCache c t) fp :=
  fun kv hm => h kv (List.mem_of_mem_filter hm)

theorem lookupCache_none {c : Cache} {fp : Str} (h : KeysNe c fp) :
    lookupCache c fp = none := by
  unfold lookupCache
  rw [List.find?_eq_none.mpr]
  · rfl
  · intro kv hm
    simp [h kv hm]

theorem lookupCache_append_single {c : Cache} {fp : Str} (h : KeysNe c fp)
    (e : CacheEntry) : lookupCache (c ++ [(fp, e)]) fp = some e := by
  induction c with
  | nil => simp [lookupCache, List.find?]
  | cons kv rest ih =>
    have hkv : kv.1 ≠ fp := h kv (by simp)
    have hrest : KeysNe rest fp := fun x hm => h x (by simp [hm])
    unfold lookupCache at ih ⊢
    rw [List.cons_append, List.find?_cons_of_neg _ (by simp [hkv])]
    exact ih hrest

theorem setCache_of_keysNe {c : Cache} {fp : Str} (h : KeysNe c fp)
    (e : CacheEntry) : setCache c fp e = c ++ [(fp, e)] := by
  unfold setCache
  rw [if_neg]
  rw [List.find?_eq_none.mpr]
  · simp
  · intro kv hm
    simp [h kv hm]

theorem find?_append_single {c : Cache} {fp : Str} (h : KeysNe c fp)
    (e : CacheEntry) :
    (c ++ [(fp, e)]).find? (fun kv => kv.1 = fp) = some (fp, e) := by
  induction c with
  | nil => simp [List.find?]
  | cons kv rest ih =>
    have hkv : kv.1 ≠ fp := h kv (by simp)
    rw [List.cons_append, List.find?_cons_of_neg _ (by simp [hkv])]
    exact ih (fun x hm => h x (by simp [hm]))

theorem setCache_append_single {c : Cache} {fp : Str} (h : KeysNe c fp)
    (e e2 : CacheEntry) :
    setCache (c ++ [(fp, e)]) fp e2 = c ++ [(fp, e2)] := by
  unfold setCache
  rw [if_pos (by rw [find?_append_single h e]; rfl)]
  rw [List.map_append]
  congr 1
  · conv_rhs => rw [← List.map_id c]
    apply List.map_congr_left
    intro kv hm
    rw [if_neg (by simp [h kv hm])]
    rfl
  · simp

theorem cleanCache_append_single {c : Cache} {fp : Str} (e : CacheEntry)
    (t : Int) (hkeep : t - e.turn ≤ CACHE_TURNS) :
    cleanCache (c ++ [(fp, e)]) t = cleanCache c t ++ [(fp, e)] := by
  unfold cleanCache
  rw [List.filter_append]
  congr 1
  simp only [List.filter]
  rw [decide_eq_true hkeep]

/-- A fresh read of an existing uncached file: allowed, and the cache
records the hash at the current turn with zero duplicate attempts. -/
theorem checkDup_fresh {c : Cache} {fp : Str} (h : KeysNe c fp)
    (hash : Nat) (t : Int) :
    checkDuplicateRead fp true hash c t =
      (.allow, cleanCache c t ++ [(fp, ⟨hash, t, 0⟩)]) := by
  have h1 := lookupCache_none (keysNe_cleanCache h t)
  have h2 := setCache_of_keysNe (keysNe_cleanCache h t)
    (⟨hash, t, 0⟩ : CacheEntry)
  simp [checkDuplicateRead, h1, h2]

/-- A repeat read of an unchanged cached file inside the window: the
duplicate counter advances and the check warns below three attempts and
blocks from the third on. -/
theorem checkDup_hit {c : Cache} {fp : Str} (h : KeysNe c fp) (hash : Nat)
    (tOld tNow : Int) (k : Nat) (hwin : tNow - tOld ≤ CACHE_TURNS) :
    checkDuplicateRead fp true hash (c ++ [(fp, ⟨hash, tOld, k⟩)]) tNow =
      ((if k + 1 ≥ 3 then .block (blockMessage fp (k + 1))
        else .warn (warnMessage fp (k + 1) (tNow - tOld))),
       cleanCache c tNow ++ [(fp, ⟨hash, tOld, k + 1⟩)]) := by
  have hclean := @cleanCache_append_single c fp
    (⟨hash, tOld, k⟩ : CacheEntry) tNow hwin
  have hlook := lookupCache_append_single (keysNe_cleanCache h tNow)
    (⟨hash, tOld, k⟩ : CacheEntry)
  have hset := setCache_append_single (keysNe_cleanCache h tNow)
    (⟨hash, tOld, k⟩ : CacheEntry) (⟨hash, tOld, k + 1⟩ : CacheEntry)
  by_cases h3 : k + 1 ≥ 3
  · simp [checkDuplicateRead, hclean, hlook, hset, hwin, h3]
  · simp [checkDuplicateRead, hclean, hlook, hset, hwin, h3]

end PreToolUse

/-! ## WSI lemmas -/

namespace StopDigest

/-- The nonempty digest file paths, in processing order. -/
def filePathsOf (fs : List FileRef) : List Str :=
  (fs.map (fun f => strOf f.path)).filter (fun p => !p.isEmpty)

/-- The nonempty RAG-suggested paths considered by `refresh_wsi`. -/
def ragPathsOf : Option (List Str) → List Str
  | none => []
  | some ps => (ps.take 3).filter (fun p => !p.isEmpty)

theorem getElem?_set_self {α : Type} :
    ∀ (l : List α) (i : Nat) (a : α), l[i]? = some a → l.set i a = l := by
  intro l
  induction l with
  | nil => intro i a h; simp at h
  | cons x xs ih =>
    intro i a h
    cases i with
    | zero => simp at h; simp [List.set, h]
    | succ n =>
      simp at h
      simp [List.set, ih n a h]

theorem seenIdx_some_get {items : List WsiItem} {p : Str} {i : Nat}
    (h : seenIdx items p = some i) :
    (items.map WsiItem.path)[i]? = some p ∧ p ≠ [] := by
  induction items generalizing i with
  | nil => simp [seenIdx] at h
  | cons it rest ih =>
    unfold seenIdx at h
    cases hr : seenIdx rest p with
    | some j =>
      rw [hr] at h
      dsimp only at h
      simp only [Option.some.injEq] at h
      obtain ⟨hgetp, hne⟩ := ih hr
      subst h
      rw [List.map_cons, List.getElem?_cons_succ]
      exact ⟨hgetp, hne⟩
    | none =>
      rw [hr] at h
      dsimp only at h
      split at h
      · rename_i hcond
        simp only [Option.some.injEq] at h
        subst h
        rw [List.map_cons, List.getElem?_cons_zero]
        refine ⟨by rw [hcond.1], ?_⟩
        intro hemp
        have := hcond.2
        rw [hemp] at this
        simp at this
      · exact absurd h (by simp)

theorem seenIdx_none_not_mem {items : List WsiItem} {p : Str}
    (h : seenIdx items p = none) (hp : p ≠ []) :
    p ∉ items.map WsiItem.path := by
  induction items with
  | nil => simp
  | cons it rest ih =>
    unfold seenIdx at h
    cases hr : seenIdx rest p with
    | some j => rw [hr] at h; exact absurd h (by simp)
    | none =>
      rw [hr] at h
      dsimp only at h
      split at h
      · exact absurd h (by simp)
      · rename_i hcond
        simp only [List.map_cons, List.mem_cons]
        rintro (hx | hx)
        · exact hcond ⟨hx.symm, by simp [hp]⟩
        · exact ih hr hx

/-- Result of the file loop of `refresh_wsi` on the path level: the original
paths stay in place and the appended paths are fresh nonempty digest
paths. -/
theorem wsiFileFold_paths (items : List WsiItem) (ts : Str) :
    ∀ (fs : List FileRef) (cur : List WsiItem) (extra : List Str),
      cur.map WsiItem.path = items.map WsiItem.path ++ extra →
      (extra ++ filePathsOf fs).Nodup →
      (∀ p ∈ extra, p ∉ items.map WsiItem.path) →
      ∃ extra2,
        (fs.foldl (wsiFileStep items ts) cur).map WsiItem.path =
          items.map WsiItem.path ++ extra2 ∧
        extra2.Nodup ∧
        (∀ p ∈ extra2, p ∉ items.map WsiItem.path) ∧
        (∀ p ∈ extra2, p ∈ extra ∨ p ∈ filePathsOf fs) := by
  intro fs
  induction fs with
  | nil =>
    intro cur extra hmap hnd hdisj
    refine ⟨extra, by simpa using hmap, ?_, hdisj, fun p hp => Or.inl hp⟩
    simpa [filePathsOf] using hnd
  | cons f rest ih =>
    intro cur extra hmap hnd hdisj
    rw [List.foldl_cons]
    by_cases hemp : (strOf f.path).isEmpty
    · have hstep : wsiFileStep items ts cur f = cur := by
        unfold wsiFileStep
        rw [if_pos hemp]
      rw [hstep]
      have hfp : filePathsOf (f :: rest) = filePathsOf rest := by
        simp [filePathsOf, List.filter, hemp]
      rw [hfp] at hnd
      obtain ⟨e2, h1, h2, h3, h4⟩ := ih cur extra hmap hnd hdisj
      exact ⟨e2, h1, h2, h3, fun p hp => (h4 p hp).imp id
        (fun hx => by rw [hfp]; exact hx)⟩
    · have hfp : filePathsOf (f :: rest) =
          strOf f.path :: filePathsOf rest := by
        simp [filePathsOf, List.filter, hemp]
      cases hseen : seenIdx items (strOf f.path) with
      | some i =>
        have hstep : wsiFileStep items ts cur f =
            cur.set i ⟨strOf f.path, f.reason.getD (str "touched"),
              f.anchors.getD [], ts⟩ := by
          unfold wsiFileStep
          rw [if_neg (by simp [hemp]), hseen]
        rw [hstep]
        obtain ⟨hget, _⟩ := seenIdx_some_get hseen
        have hlt : i < (items.map WsiItem.path).length := by
          rcases List.getElem?_eq_some.mp hget with ⟨h, _⟩
          exact h
        have hgetcur : (cur.map WsiItem.path)[i]? = some (strOf f.path) := by
          rw [hmap, List.getElem?_append_left hlt]
          exact hget
        have hmap2 : (cur.set i ⟨strOf f.path, f.reason.getD (str "touched"),
            f.anchors.getD [], ts⟩).map WsiItem.path =
            items.map WsiItem.path ++ extra := by
          rw [List.map_set]
          rw [getElem?_set_self _ _ _ hgetcur]
          exact hmap
        have hnd2 : (extra ++ filePathsOf rest).Nodup := by
          rw [hfp] at hnd
          exact hnd.sublist (by
            refine List.Sublist.append (List.Sublist.refl extra) ?_
            exact List.sublist_cons_self _ _)
        obtain ⟨e2, h1, h2, h3, h4⟩ := ih _ extra hmap2 hnd2 hdisj
        exact ⟨e2, h1, h2, h3, fun p hp => (h4 p hp).imp id
          (fun hx => by rw [hfp]; exact List.mem_cons_of_mem _ hx)⟩
      | none =>
        have hstep : wsiFileStep items ts cur f =
            cur ++ [⟨strOf f.path, f.reason.getD (str "touched"),
              f.anchors.getD [], ts⟩] := by
          unfold wsiFileStep
          rw [if_neg (by simp [hemp]), hseen]
        rw [hstep]
        have hmap2 : (cur ++ [(⟨strOf f.path, f.reason.getD (str "touched"),
            f.anchors.getD [], ts⟩ : WsiItem)]).map WsiItem.path =
            items.map WsiItem.path ++ (extra ++ [strOf f.path]) := by
          simp [hmap]
        have hnd2 : ((extra ++ [strOf f.path]) ++ filePathsOf rest).Nodup := by
          rw [hfp] at hnd
          simpa [List.append_assoc] using hnd
        have hdisj2 : ∀ p ∈ extra ++ [strOf f.path],
            p ∉ items.map WsiItem.path := by
          intro p hp
          rcases List.mem_append.mp hp with hp | hp
          · exact hdisj p hp
          · simp at hp
            subst hp
            exact seenIdx_none_not_mem hseen (by simpa using hemp)
        obtain ⟨e2, h1, h2, h3, h4⟩ := ih _ (extra ++ [strOf f.path])
          hmap2 hnd2 hdisj2
        refine ⟨e2, h1, h2, h3, fun p hp => ?_⟩
        rcases h4 p hp with hx | hx
        · rcases List.mem_append.mp hx with hx | hx
          · exact Or.inl hx
          · simp at hx
            subst hx
            exact Or.inr (by rw [hfp]; exact List.mem_cons_self _ _)
        · exact Or.inr (by rw [hfp]; exact List.mem_cons_of_mem _ hx)

/-- Result of the RAG loop of `refresh_wsi` on the path level. -/
theorem wsiRagFold_paths (items : List WsiItem) (ts : Str) :
    ∀ (ps : List Str) (cur : List WsiItem) (extra : List Str),
      cur.map WsiItem.path = items.map WsiItem.path ++ extra →
      (extra ++ ps.filter (fun p => !p.isEmpty)).Nodup →
      (∀ p ∈ extra, p ∉ items.map WsiItem.path) →
      ∃ extra2,
        (ps.foldl (wsiRagStep items ts) cur).map WsiItem.path =
          items.map WsiItem.path ++ extra2 ∧
        extra2.Nodup ∧
        (∀ p ∈ extra2, p ∉ items.map WsiItem.path) := by
  intro ps
  induction ps with
  | nil =>
    intro cur extra hmap hnd hdisj
    exact ⟨extra, by simpa using hmap, by simpa using hnd, hdisj⟩
  | cons p rest ih =>
    intro cur extra hmap hnd hdisj
    rw [List.foldl_cons]
    by_cases hemp : p.isEmpty
    · have hstep : wsiRagStep items ts cur p = cur := by
        unfold wsiRagStep
        rw [if_neg (by simp [hemp])]
      rw [hstep]
      have hfil : (p :: rest).filter (fun q => !q.isEmpty) =
          rest.filter (fun q => !q.isEmpty) := by
        simp [List.filter, hemp]
      rw [hfil] at hnd
      exact ih cur extra hmap hnd hdisj
    · have hfil : (p :: rest).filter (fun q => !q.isEmpty) =
          p :: rest.filter (fun q => !q.isEmpty) := by
        simp [List.filter, hemp]
      rw [hfil] at hnd
      cases hseen : seenIdx items p with
      | some i =>
        have hstep : wsiRagStep items ts cur p = cur := by
          unfold wsiRagStep
          rw [if_neg (by simp [hseen])]
        rw [hstep]
        exact ih cur extra hmap
          (hnd.sublist (List.Sublist.append (List.Sublist.refl extra)
            (List.sublist_cons_self _ _))) hdisj
      | none =>
        have hstep : wsiRagStep items ts cur p =
            cur ++ [⟨p, str "rag-suggest", [], ts⟩] := by
          unfold wsiRagStep
          rw [if_pos (by simp [hemp, hseen])]
        rw [hstep]
        have hmap2 : (cur ++ [(⟨p, str "rag-suggest", [], ts⟩ :
            WsiItem)]).map WsiItem.path =
            items.map WsiItem.path ++ (extra ++ [p]) := by
          simp [hmap]
        have hnd2 : ((extra ++ [p]) ++
            rest.filter (fun q => !q.isEmpty)).Nodup := by
          simpa [List.append_assoc] using hnd
        have hdisj2 : ∀ q ∈ extra ++ [p], q ∉ items.map WsiItem.path := by
          intro q hq
          rcases List.mem_append.mp hq with hq | hq
          · exact hdisj q hq
          · simp at hq
            subst hq
            exact seenIdx_none_not_mem hseen (by simpa using hemp)
        exact ih _ (extra ++ [p]) hmap2 hnd2 hdisj2

/-- Length of a separator join. -/
theorem joinSep_length (sep : Str) :
    ∀ l : List Str, (joinSep sep l).length =
      (l.map List.length).sum + sep.length * (l.length - 1) := by
  intro l
  induction l with
  | nil => simp [joinSep]
  | cons x rest ih =>
    cases rest with
    | nil => simp [joinSep]
    | cons y rest2 =>
      have hstep : joinSep sep (x :: y :: rest2) =
          x ++ sep ++ joinSep sep (y :: rest2) := rfl
      rw [hstep]
      simp only [List.length_append, ih, List.map_cons, List.sum_cons,
        List.length_cons]
      simp only [List.length_cons, Nat.add_sub_cancel]
      rw [Nat.mul_succ]
      omega

/-- Sum of line lengths plus line count: the contribution of a block of
`text_parts` to the length of the joined text. -/
def partsWeight (B : List Str) : Nat := (B.map List.length).sum + B.length

theorem partsWeight_append (B1 B2 : List Str) :
    partsWeight (B1 ++ B2) = partsWeight B1 + partsWeight B2 := by
  simp [partsWeight]
  omega

/-- Length of the digest text in terms of the header and the blocks. -/
theorem joinSep_header_length (h : Str) (B : List Str) :
    (joinSep (str "\n") ([h, []] ++ B)).length =
      h.length + 1 + partsWeight B := by
  rw [joinSep_length]
  simp [partsWeight, str]
  omega

theorem pyOr_ne_empty {xs : List Str} (hx : ∃ x ∈ xs, x ≠ []) :
    pyOr xs ≠ [] := by
  unfold pyOr
  obtain ⟨x, hmem, hne⟩ := hx
  cases hfind : xs.find? (fun s => !s.isEmpty) with
  | none =>
    exfalso
    have hthis := List.find?_eq_none.mp hfind x hmem
    rcases x with _ | ⟨c, cs⟩
    · exact hne rfl
    · exact hthis (by simp)
  | some y =>
    have hy := List.find?_some hfind
    simp at hy ⊢
    simpa using hy

/-- Any digest passing the three content gates serialises to at least 53
characters, so the 50-character length gate can never fire after them. -/
theorem buildDigestText_length_ge (d : Digest)
    (hg : contentGatesPass d = true) :
    MIN_DIGEST_LENGTH ≤ (buildDigestText d).length := by
  have hdecomp : buildDigestText d =
      joinSep (str "\n") ([digestHeader d, []] ++
        (summaryBlock d ++ problemBlock d ++ rootCauseBlock d ++
         solutionBlock d ++ outcomeBlock d ++ lessonBlock d ++ filesBlock d ++
         contractsBlock d ++ nextBlock d)) := rfl
  rw [hdecomp, joinSep_header_length]
  have hgates := hg
  unfold contentGatesPass at hgates
  simp only [Bool.and_eq_true] at hgates
  obtain ⟨⟨hg1, _⟩, hg3⟩ := hgates
  -- header length: 41 plus agent and task; gate 3 forces a nonempty task
  have htaskne : d.taskId.getD (str "untagged") ≠ [] := by
    intro h0
    rw [h0] at hg3
    simp at hg3
  have htask : 1 ≤ (d.taskId.getD (str "untagged")).length :=
    List.length_pos.mpr htaskne
  have hhdr : 42 ≤ (digestHeader d).length := by
    unfold digestHeader
    simp only [List.length_append]
    have l1 : (str "Session Summary: ").length = 17 := rfl
    have l2 : (str " agent completed task ").length = 22 := rfl
    have l3 : ([apos] : Str).length = 1 := rfl
    omega
  -- the summary and problem blocks together weigh at least 7
  have hblocks : 7 ≤ partsWeight (summaryBlock d) +
      partsWeight (problemBlock d) := by
    by_cases hsum : (strOf d.summary).isEmpty = true
    · -- summary empty: gate 1 leaves problem+solution or decisions, and in
      -- both cases the problem block is one line of at least 10 characters
      have h10 : 10 ≤ partsWeight (problemBlock d) := by
        by_cases hpt : (problemText d).isEmpty = true
        · have hptnil : problemText d = [] := by
            rcases hx : problemText d with _ | ⟨c, cs⟩
            · rfl
            · rw [hx] at hpt
              simp at hpt
          have hp : strOf d.problem = [] := by
            by_contra hx
            exact pyOr_ne_empty ⟨strOf d.problem, by simp, hx⟩ hptnil
          have hs : strOf d.symptom = [] := by
            by_contra hx
            exact pyOr_ne_empty ⟨strOf d.symptom, by simp, hx⟩ hptnil
          have hdec : (!d.decisions.isEmpty) = true := by
            unfold gate1 at hg1
            rw [hp, hs] at hg1
            simp only [Bool.or_eq_true] at hg1
            rcases hg1 with (hg1 | hg1) | hg1
            · rw [hsum] at hg1
              simp at hg1
            · simp at hg1
            · exact hg1
          unfold problemBlock
          rw [if_neg (by simp [hpt]), if_pos hdec]
          simp [partsWeight]
          have : (str "Problem: ").length = 9 := rfl
          omega
        · unfold problemBlock
          rw [if_pos (by simp at hpt ⊢; exact hpt)]
          simp [partsWeight]
          have : (str "Problem: ").length = 9 := rfl
          omega
      omega
    · -- summary nonempty: its block weighs at least 12
      have hsb : 12 ≤ partsWeight (summaryBlock d) := by
        unfold summaryBlock
        rw [if_pos (by simp [hsum])]
        have hsumne : strOf d.summary ≠ [] := by
          intro h0
          rw [h0] at hsum
          simp at hsum
        have hslen : 1 ≤ (strOf d.summary).length :=
          List.length_pos.mpr hsumne
        simp [partsWeight]
        have : (str "Summary: ").length = 9 := rfl
        omega
      omega
  have hW : partsWeight (summaryBlock d ++ problemBlock d ++
      rootCauseBlock d ++ solutionBlock d ++ outcomeBlock d ++
      lessonBlock d ++ filesBlock d ++ contractsBlock d ++ nextBlock d) =
      partsWeight (summaryBlock d) + partsWeight (problemBlock d) +
      partsWeight (rootCauseBlock d) + partsWeight (solutionBlock d) +
      partsWeight (outcomeBlock d) + partsWeight (lessonBlock d) +
      partsWeight (filesBlock d) + partsWeight (contractsBlock d) +
      partsWeight (nextBlock d) := by
    simp [partsWeight_append]
    omega
  rw [hW]
  unfold MIN_DIGEST_LENGTH
  omega

/-- The combined path-level description of `refreshWsiFull`. -/
theorem refreshWsiFull_paths (items : List WsiItem)
    (digestFiles : List FileRef) (ragPaths : Option (List Str)) (ts : Str)
    (H3 : (filePathsOf digestFiles).Nodup)
    (H4 : (ragPathsOf ragPaths).Nodup)
    (H5 : ∀ p ∈ ragPathsOf ragPaths, p ∉ filePathsOf digestFiles) :
    ∃ extra,
      (refreshWsiFull items digestFiles ragPaths ts).map WsiItem.path =
        items.map WsiItem.path ++ extra ∧
      extra.Nodup ∧
      (∀ p ∈ extra, p ∉ items.map WsiItem.path) := by
  obtain ⟨e1, hmap1, hnd1, hdisj1, hsub1⟩ :=
    wsiFileFold_paths items ts digestFiles items []
      (by simp) (by simpa using H3) (by simp)
  unfold refreshWsiFull
  cases ragPaths with
  | none => exact ⟨e1, hmap1, hnd1, hdisj1⟩
  | some ps =>
    have hnd : (e1 ++ (ps.take 3).filter (fun p => !p.isEmpty)).Nodup := by
      rw [List.nodup_append]
      refine ⟨hnd1, by simpa [ragPathsOf] using H4, ?_⟩
      intro p hp hq
      have hrp : p ∈ ragPathsOf (some ps) := by simpa [ragPathsOf] using hq
      rcases hsub1 p hp with hx | hx
      · simp at hx
      · exact H5 p hrp hx
    obtain ⟨e2, hmap2, hnd2, hdisj2⟩ :=
      wsiRagFold_paths items ts (ps.take 3) _ e1 hmap1 hnd hdisj1
    exact ⟨e2, hmap2, hnd2, hdisj2⟩

end StopDigest

/-! ## Rotation-scanner lemmas

The hard part of claim C8 is that re-running the section regex on the
rewritten journal yields at most 20 matches.  The proof tracks a
decomposition of the scanned text into a safe gap followed by section
blocks; each recursive step of the scanner consumes at least one block. -/

namespace StopDigest

theorem splitAtChar_not_mem (ch : Char) :
    ∀ t x y, splitAtChar ch t = some (x, y) → ch ∉ x := by
  intro t
  induction t with
  | nil => intro x y h; simp [splitAtChar] at h
  | cons c rest ih =>
    intro x y h
    unfold splitAtChar at h
    split at h
    · simp only [Option.some.injEq, Prod.mk.injEq] at h
      rw [← h.1]
      simp
    · rename_i hc
      cases hfr : splitAtChar ch rest with
      | none => rw [hfr] at h; exact absurd h (by simp)
      | some q =>
        rw [hfr] at h
        simp only [Option.map, Option.some.injEq, Prod.mk.injEq] at h
        rw [← h.1]
        intro hmem
        rcases List.mem_cons.mp hmem with hx | hx
        · exact hc hx.symm
        · exact ih q.1 q.2 (by rw [hfr]) hx

theorem findSplit_min (p : Str → Bool) :
    ∀ t x y, findSplit p t = some (x, y) →
      ∀ u v, x = u ++ v → v ≠ [] → p (v ++ y) = false := by
  intro t
  induction t with
  | nil =>
    intro x y h
    unfold findSplit at h
    split at h
    · simp only [Option.some.injEq, Prod.mk.injEq] at h
      intro u v huv hv
      rw [← h.1] at huv
      have := List.append_eq_nil.mp huv.symm
      exact absurd this.2 hv
    · exact absurd h (by simp)
  | cons c rest ih =>
    intro x y h
    unfold findSplit at h
    split at h
    · simp only [Option.some.injEq, Prod.mk.injEq] at h
      intro u v huv hv
      rw [← h.1] at huv
      have := List.append_eq_nil.mp huv.symm
      exact absurd this.2 hv
    · rename_i hp
      cases hfr : findSplit p rest with
      | none => rw [hfr] at h; exact absurd h (by simp)
      | some q =>
        rw [hfr] at h
        simp only [Option.map, Option.some.injEq, Prod.mk.injEq] at h
        obtain ⟨hx, hy⟩ := h
        intro u v huv hv
        cases u with
        | nil =>
          simp at huv
          rw [← huv, ← hx, ← hy]
          have hrest : rest = q.1 ++ q.2 :=
            findSplit_append p rest q.1 q.2 (by rw [hfr])
          have hcq : (c :: q.1) ++ q.2 = c :: rest := by rw [hrest]; rfl
          rw [hcq]
          simpa using hp
        | cons u0 us =>
          have hx2 : c :: q.1 = u0 :: (us ++ v) := by
            rw [hx, huv]
            rfl
          simp only [List.cons.injEq] at hx2
          rw [← hy]
          exact ih q.1 q.2 (by rw [hfr]) us v hx2.2 hv

theorem findSplit_none_prop (p : Str → Bool) :
    ∀ t, findSplit p t = none → ∀ x y, t = x ++ y → p y = false := by
  intro t
  induction t with
  | nil =>
    intro h x y hxy
    unfold findSplit at h
    split at h
    · exact absurd h (by simp)
    · rename_i hp
      have := List.append_eq_nil.mp hxy.symm
      rw [this.2]
      simpa using hp
  | cons c rest ih =>
    intro h x y hxy
    unfold findSplit at h
    split at h
    · exact absurd h (by simp)
    · rename_i hp
      cases hfr : findSplit p rest with
      | some q => rw [hfr] at h; exact absurd h (by simp)
      | none =>
        cases x with
        | nil =>
          simp at hxy
          rw [← hxy]
          simpa using hp
        | cons x0 xs =>
          simp only [List.cons_append, List.cons.injEq] at hxy
          exact ih hfr xs y hxy.2

/-- The first-occurrence split of a character is unique. -/
theorem splitChar_unique {ch : Char} :
    ∀ (x1 z1 x2 z2 : Str), x1 ++ ch :: z1 = x2 ++ ch :: z2 →
      ch ∉ x1 → ch ∉ x2 → x1 = x2 ∧ z1 = z2 := by
  intro x1
  induction x1 with
  | nil =>
    intro z1 x2 z2 heq h1 h2
    cases x2 with
    | nil =>
      simp at heq
      exact ⟨rfl, heq⟩
    | cons c cs =>
      simp at heq
      exact absurd (heq.1 ▸ List.mem_cons_self c cs) (heq.1 ▸ h2)
  | cons a as ih =>
    intro z1 x2 z2 heq h1 h2
    cases x2 with
    | nil =>
      simp at heq
      exact absurd (heq.1 ▸ List.mem_cons_self a as) (heq.1 ▸ h1)
    | cons b bs =>
      simp only [List.cons_append, List.cons.injEq] at heq
      obtain ⟨hab, heq2⟩ := heq
      have h1' : ch ∉ as := fun hx => h1 (List.mem_cons_of_mem _ hx)
      have h2' : ch ∉ bs := fun hx => h2 (List.mem_cons_of_mem _ hx)
      obtain ⟨he1, he2⟩ := ih z1 bs z2 heq2 h1' h2'
      exact ⟨by rw [hab, he1], he2⟩

theorem secStartB_shape {s : Str} (h : secStartB s = true) :
    ∃ d1 d2 d3 d4 d5 d6 d7 d8 r,
      s = '#' :: '#' :: ' ' :: '[' :: d1 :: d2 :: d3 :: d4 :: '-' :: d5 ::
        d6 :: '-' :: d7 :: d8 :: r ∧
      d1.isDigit ∧ d2.isDigit ∧ d3.isDigit ∧ d4.isDigit ∧ d5.isDigit ∧
      d6.isDigit ∧ d7.isDigit ∧ d8.isDigit := by
  unfold secStartB at h
  split at h
  · simp only [Bool.and_eq_true] at h
    exact ⟨_, _, _, _, _, _, _, _, _, rfl, h.1.1.1.1.1.1.1, h.1.1.1.1.1.1.2,
      h.1.1.1.1.1.2, h.1.1.1.1.2, h.1.1.1.2, h.1.1.2, h.1.2, h.2⟩
  · simp at h

theorem htokB_shape {s : Str} (h : htokB s = true) :
    ∃ r, s = '\n' :: '#' :: '#' :: ' ' :: r := by
  unfold htokB at h
  split at h
  · exact ⟨_, rfl⟩
  · simp at h

theorem htokB_short {s : Str} (h : s.length < 4) : htokB s = false := by
  cases hf : htokB s with
  | false => rfl
  | true =>
    obtain ⟨r, hr⟩ := htokB_shape hf
    rw [hr] at h
    simp only [List.length_cons] at h
    omega

theorem htokB_append_4 {w : Str} (h : 4 ≤ w.length) (r : Str) :
    htokB (w ++ r) = htokB w := by
  rcases w with _ | ⟨a, _ | ⟨b, _ | ⟨c, _ | ⟨d, rest⟩⟩⟩⟩
  · simp at h
  · simp at h
  · simp at h
  · simp at h
  · show htokB (a :: b :: c :: d :: (rest ++ r)) = htokB (a :: b :: c :: d :: rest)
    unfold htokB
    rcases Decidable.em (a = '\n') with ha | ha <;>
      rcases Decidable.em (b = '#') with hb | hb <;>
        rcases Decidable.em (c = '#') with hc | hc <;>
          rcases Decidable.em (d = ' ') with hd | hd <;>
            simp_all <;> (try rfl) <;> (split <;> simp_all)

theorem suffix_append_cases {b x z : Str} (h : b <:+ x ++ z) :
    b <:+ z ∨ ∃ y, y <:+ x ∧ y ≠ [] ∧ b = y ++ z := by
  induction x with
  | nil => left; simpa using h
  | cons c cs ih =>
    rw [List.cons_append] at h
    rcases List.suffix_cons_iff.mp h with h0 | h0
    · right
      exact ⟨c :: cs, List.suffix_refl _, List.cons_ne_nil _ _, by rw [h0]; rfl⟩
    · rcases ih h0 with h1 | ⟨y, hy, hyne, hby⟩
      · left; exact h1
      · right
        exact ⟨y, hy.trans (List.suffix_cons c cs), hyne, hby⟩

theorem suffix_flatten {f : Str} :
    ∀ (L : List Str), f <:+ L.flatten → f ≠ [] →
      ∃ L1 blk L2 w, L = L1 ++ blk :: L2 ∧ w <:+ blk ∧ w ≠ [] ∧
        f = w ++ L2.flatten := by
  intro L
  induction L with
  | nil =>
    intro h hne
    simp only [List.flatten_nil] at h
    exact absurd (List.suffix_nil.mp h) hne
  | cons b L2 ih =>
    intro h hne
    rw [List.flatten_cons] at h
    rcases suffix_append_cases h with h0 | ⟨y, hy, hyne, hby⟩
    · obtain ⟨L1, blk, L2b, w, hL, hw, hwne, hf⟩ := ih h0 hne
      exact ⟨b :: L1, blk, L2b, w, by rw [hL]; rfl, hw, hwne, hf⟩
    · exact ⟨[], b, L2, y, rfl, hy, hyne, hby⟩

theorem suffix_singleton {y : Str} {c : Char} (h : y <:+ [c]) (hne : y ≠ []) :
    y = [c] := by
  obtain ⟨pre, hpre⟩ := h
  cases y with
  | nil => exact absurd rfl hne
  | cons z zs =>
    cases pre with
    | nil => simpa using hpre
    | cons p ps =>
      have := congrArg List.length hpre
      simp at this

theorem digit_ne_rbracket {c : Char} (h : c.isDigit = true) : c ≠ ']' := by
  intro he
  subst he
  simp [Char.isDigit] at h

theorem secStartB_no_br {s : Str} (h : secStartB s = true) :
    ']' ∉ s.take 14 := by
  obtain ⟨d1, d2, d3, d4, d5, d6, d7, d8, r, hs, h1, h2, h3, h4, h5, h6, h7,
    h8⟩ := secStartB_shape h
  subst hs
  intro hmem
  simp [List.take] at hmem
  rcases hmem with h | h | h | h | h | h | h | h
  · exact digit_ne_rbracket h1 h.symm
  · exact digit_ne_rbracket h2 h.symm
  · exact digit_ne_rbracket h3 h.symm
  · exact digit_ne_rbracket h4 h.symm
  · exact digit_ne_rbracket h5 h.symm
  · exact digit_ne_rbracket h6 h.symm
  · exact digit_ne_rbracket h7 h.symm
  · exact digit_ne_rbracket h8 h.symm

theorem secStartB_head {c : Char} {r : Str} (h : c ≠ '#') :
    secStartB (c :: r) = false := by
  cases hs : secStartB (c :: r) with
  | false => rfl
  | true =>
    obtain ⟨d1, d2, d3, d4, d5, d6, d7, d8, rr, hsh, _⟩ := secStartB_shape hs
    simp only [List.cons.injEq] at hsh
    exact absurd hsh.1 h

theorem secStartB_two {c1 c2 : Char} {r : Str} (h : c2 ≠ '#') :
    secStartB (c1 :: c2 :: r) = false := by
  cases hs : secStartB (c1 :: c2 :: r) with
  | false => rfl
  | true =>
    obtain ⟨d1, d2, d3, d4, d5, d6, d7, d8, rr, hsh, _⟩ := secStartB_shape hs
    simp only [List.cons.injEq] at hsh
    exact absurd hsh.2.1 h

theorem secStartB_intro {d1 d2 d3 d4 d5 d6 d7 d8 : Char} {r : Str}
    (h1 : d1.isDigit = true) (h2 : d2.isDigit = true) (h3 : d3.isDigit = true)
    (h4 : d4.isDigit = true) (h5 : d5.isDigit = true) (h6 : d6.isDigit = true)
    (h7 : d7.isDigit = true) (h8 : d8.isDigit = true) :
    secStartB ('#' :: '#' :: ' ' :: '[' :: d1 :: d2 :: d3 :: d4 :: '-' :: d5 ::
      d6 :: '-' :: d7 :: d8 :: r) = true := by
  show (d1.isDigit && d2.isDigit && d3.isDigit && d4.isDigit && d5.isDigit &&
    d6.isDigit && d7.isDigit && d8.isDigit) = true
  rw [h1, h2, h3, h4, h5, h6, h7, h8]
  rfl

theorem take14_pattern {d1 d2 d3 d4 d5 d6 d7 d8 : Char} (r : Str) :
    ('#' :: '#' :: ' ' :: '[' :: d1 :: d2 :: d3 :: d4 :: '-' :: d5 :: d6 ::
      '-' :: d7 :: d8 :: r).take 14 =
      '#' :: '#' :: ' ' :: '[' :: d1 :: d2 :: d3 :: d4 :: '-' :: d5 :: d6 ::
      '-' :: d7 :: [d8] := rfl

/-- No close bracket occurs in `u`. -/
def NoBr (u : Str) : Prop := ']' ∉ u

/-- No suffix of `v` begins with the lookahead token. -/
def NoHtok (v : Str) : Prop := ∀ x y, v = x ++ y → htokB y = false

/-- The shape of a matched section: a bracket-free head up to the first close
bracket, then a token-free tail. -/
def SecShape (s : Str) : Prop := ∃ u v, s = u ++ ']' :: v ∧ NoBr u ∧ NoHtok v

/-- No position inside `g` can begin a header match, whatever text follows. -/
def GapSafe (g : Str) : Prop :=
  ∀ x y, g = x ++ y → y ≠ [] → ∀ r, secStartB (y ++ r) = false

/-- Every block after the first begins with a full header match. -/
def BlocksOK : List Str → Prop
  | [] => True
  | _ :: rest => ∀ s ∈ rest, secStartB s = true

/-- The scanned text splits into a safe gap followed by at most `n` section
blocks whose tails cannot host a header start. -/
def Decomp (t : Str) (n : Nat) : Prop :=
  ∃ g bs, t = g ++ bs.flatten ∧ bs.length ≤ n ∧ GapSafe g ∧
    (∀ s ∈ bs, SecShape s) ∧ BlocksOK bs

theorem gapSafe_nil : GapSafe [] := by
  intro x y hxy hy r
  exact absurd (List.append_eq_nil.mp hxy.symm).2 hy

theorem gapSafe_newline : GapSafe ['\n'] := by
  intro x y hxy hy r
  cases x with
  | nil =>
    have hy2 : y = ['\n'] := by simpa using hxy.symm
    subst hy2
    exact secStartB_head (by decide)
  | cons a xs =>
    simp only [List.cons_append, List.cons.injEq] at hxy
    exact absurd (List.append_eq_nil.mp hxy.2.symm).2 hy

theorem gapSafe_header : GapSafe NOTES_HEADER := by
  intro x y hxy hy r
  cases x with
  | nil =>
    have hy2 : y = NOTES_HEADER := by simpa using hxy.symm
    subst hy2
    have hH : NOTES_HEADER = '#' :: ' ' :: NOTES_HEADER.drop 2 := by decide
    rw [hH, List.cons_append, List.cons_append]
    exact secStartB_two (by decide)
  | cons a xs =>
    cases y with
    | nil => exact absurd rfl hy
    | cons c ys =>
      have h1 : NOTES_HEADER.drop 1 = xs ++ c :: ys := by rw [hxy]; rfl
      have hcmem : c ∈ NOTES_HEADER.drop 1 := by
        rw [h1]
        exact List.mem_append_right _ (List.mem_cons_self _ _)
      have hno : '#' ∉ NOTES_HEADER.drop 1 := by decide
      have hcne : c ≠ '#' := fun he => hno (he ▸ hcmem)
      exact secStartB_head hcne

theorem noHtok_of_min {d e f : Str} (h3 : findSplit htokB d = some (e, f)) :
    NoHtok e := by
  intro x y hxy
  by_cases hyn : y = []
  · subst hyn; exact htokB_short (by simp)
  · by_cases hlen : y.length < 4
    · exact htokB_short hlen
    · have h4 : 4 ≤ y.length := by omega
      have hmin := findSplit_min htokB d e f h3 x y hxy hyn
      rw [htokB_append_4 h4 f] at hmin
      exact hmin

theorem section_shape {b c v : Str}
    (hb : secStartB b = true) (hc : ']' ∉ c) (hv : NoHtok v) :
    SecShape (b.take 14 ++ c ++ [']'] ++ v) ∧
      secStartB (b.take 14 ++ c ++ [']'] ++ v) = true := by
  constructor
  · refine ⟨b.take 14 ++ c, v, by simp, ?_, hv⟩
    intro hmem
    rcases List.mem_append.mp hmem with h | h
    · exact secStartB_no_br hb h
    · exact hc h
  · obtain ⟨d1, d2, d3, d4, d5, d6, d7, d8, r, hsh, h1, h2, h3, h4, h5, h6, h7,
      h8⟩ := secStartB_shape hb
    rw [hsh, take14_pattern]
    have hform : ('#' :: '#' :: ' ' :: '[' :: d1 :: d2 :: d3 :: d4 :: '-' ::
        d5 :: d6 :: '-' :: d7 :: [d8]) ++ c ++ [']'] ++ v =
        '#' :: '#' :: ' ' :: '[' :: d1 :: d2 :: d3 :: d4 :: '-' :: d5 :: d6 ::
        '-' :: d7 :: d8 :: (c ++ [']'] ++ v) := by simp
    rw [hform]
    exact secStartB_intro h1 h2 h3 h4 h5 h6 h7 h8

theorem scanSecsF_eq (fuel : Nat) (t : Str) :
    scanSecsF (fuel + 1) t =
      match findSplit secStartB t with
      | none => []
      | some (_, b) =>
        match splitAtChar ']' (b.drop 14) with
        | none => []
        | some (c, d) =>
          match findSplit htokB d with
          | none => [b.take 14 ++ c ++ [']'] ++ d]
          | some (e, f) => (b.take 14 ++ c ++ [']'] ++ e) :: scanSecsF fuel f :=
  rfl

theorem scanSecsF_none {fuel : Nat} {t : Str}
    (h : findSplit secStartB t = none) : scanSecsF (fuel + 1) t = [] := by
  rw [scanSecsF_eq, h]

theorem scanSecsF_brNone {fuel : Nat} {t a b : Str}
    (h : findSplit secStartB t = some (a, b))
    (h2 : splitAtChar ']' (b.drop 14) = none) : scanSecsF (fuel + 1) t = [] := by
  rw [scanSecsF_eq, h]
  show (match splitAtChar ']' (b.drop 14) with
    | none => ([] : List Str)
    | some (c, d) =>
      match findSplit htokB d with
      | none => [b.take 14 ++ c ++ [']'] ++ d]
      | some (e, f) => (b.take 14 ++ c ++ [']'] ++ e) :: scanSecsF fuel f) = []
  rw [h2]

theorem scanSecsF_last {fuel : Nat} {t a b c d : Str}
    (h : findSplit secStartB t = some (a, b))
    (h2 : splitAtChar ']' (b.drop 14) = some (c, d))
    (h3 : findSplit htokB d = none) :
    scanSecsF (fuel + 1) t = [b.take 14 ++ c ++ [']'] ++ d] := by
  rw [scanSecsF_eq, h]
  show (match splitAtChar ']' (b.drop 14) with
    | none => ([] : List Str)
    | some (c, d) =>
      match findSplit htokB d with
      | none => [b.take 14 ++ c ++ [']'] ++ d]
      | some (e, f) => (b.take 14 ++ c ++ [']'] ++ e) :: scanSecsF fuel f) = _
  rw [h2]
  show (match findSplit htokB d with
    | none => [b.take 14 ++ c ++ [']'] ++ d]
    | some (e, f) => (b.take 14 ++ c ++ [']'] ++ e) :: scanSecsF fuel f) = _
  rw [h3]

theorem scanSecsF_cons {fuel : Nat} {t a b c d e f : Str}
    (h : findSplit secStartB t = some (a, b))
    (h2 : splitAtChar ']' (b.drop 14) = some (c, d))
    (h3 : findSplit htokB d = some (e, f)) :
    scanSecsF (fuel + 1) t =
      (b.take 14 ++ c ++ [']'] ++ e) :: scanSecsF fuel f := by
  rw [scanSecsF_eq, h]
  show (match splitAtChar ']' (b.drop 14) with
    | none => ([] : List Str)
    | some (c, d) =>
      match findSplit htokB d with
      | none => [b.take 14 ++ c ++ [']'] ++ d]
      | some (e, f) => (b.take 14 ++ c ++ [']'] ++ e) :: scanSecsF fuel f) = _
  rw [h2]
  show (match findSplit htokB d with
    | none => [b.take 14 ++ c ++ [']'] ++ d]
    | some (e, f) => (b.take 14 ++ c ++ [']'] ++ e) :: scanSecsF fuel f) = _
  rw [h3]

/-- Every section produced by the scanner has the bracket shape and begins
with a full header match. -/
theorem scanSecsF_sections :
    ∀ (fuel : Nat) (t s : Str), s ∈ scanSecsF fuel t →
      SecShape s ∧ secStartB s = true := by
  intro fuel
  induction fuel with
  | zero => intro t s hs; simp [scanSecsF] at hs
  | succ fuel ih =>
    intro t s hs
    cases hfs : findSplit secStartB t with
    | none => rw [scanSecsF_none hfs] at hs; simp at hs
    | some ab =>
      obtain ⟨a, b⟩ := ab
      cases hsp : splitAtChar ']' (b.drop 14) with
      | none => rw [scanSecsF_brNone hfs hsp] at hs; simp at hs
      | some cd =>
        obtain ⟨c, d⟩ := cd
        cases hht : findSplit htokB d with
        | none =>
          rw [scanSecsF_last hfs hsp hht, List.mem_singleton] at hs
          subst hs
          exact section_shape (findSplit_prop _ _ _ _ hfs)
            (splitAtChar_not_mem _ _ _ _ hsp) (findSplit_none_prop _ _ hht)
        | some ef =>
          obtain ⟨e, f⟩ := ef
          rw [scanSecsF_cons hfs hsp hht] at hs
          rcases List.mem_cons.mp hs with h | h
          · subst h
            exact section_shape (findSplit_prop _ _ _ _ hfs)
              (splitAtChar_not_mem _ _ _ _ hsp) (noHtok_of_min hht)
          · exact ih f s h

theorem scanSecs_sections {t s : Str} (hs : s ∈ scanSecs t) :
    SecShape s ∧ secStartB s = true :=
  scanSecsF_sections (t.length + 1) t s hs

/-- One scanner step preserves the decomposition invariant and consumes at
least one block: the resumption suffix `f` decomposes with one block fewer. -/
theorem decomp_step {t a b c d e f : Str} {n : Nat}
    (hdec : Decomp t n)
    (h1 : findSplit secStartB t = some (a, b))
    (h2 : splitAtChar ']' (b.drop 14) = some (c, d))
    (h3 : findSplit htokB d = some (e, f)) :
    Decomp f (n - 1) ∧ 1 ≤ n := by
  obtain ⟨g, bs, ht, hbsn, hgap, hshape, hblocks⟩ := hdec
  have hbstart : secStartB b = true := findSplit_prop _ _ _ _ h1
  have htab : t = a ++ b := findSplit_append _ _ _ _ h1
  have hb14 : 14 ≤ b.length := secStartB_length hbstart
  have hbne : b ≠ [] := by
    intro h0
    rw [h0] at hb14
    simp at hb14
  have hbflat : b <:+ bs.flatten := by
    have hbsuff : b <:+ g ++ bs.flatten := by
      rw [← ht]; exact ⟨a, htab.symm⟩
    rcases suffix_append_cases hbsuff with h | ⟨y, ⟨x, hxy⟩, hyne, hby⟩
    · exact h
    · have hfalse := hgap x y hxy.symm hyne bs.flatten
      rw [← hby, hbstart] at hfalse
      simp at hfalse
  obtain ⟨b0, rest, rfl⟩ : ∃ b0 rest, bs = b0 :: rest := by
    cases bs with
    | nil =>
      exfalso
      rw [List.flatten_nil] at hbflat
      exact hbne (List.suffix_nil.mp hbflat)
    | cons b0 rest => exact ⟨b0, rest, rfl⟩
  have hbl : ∀ s ∈ rest, secStartB s = true := hblocks
  have hn1 : 1 ≤ n := by
    simp only [List.length_cons] at hbsn
    omega
  obtain ⟨u0, v0, hb0, hu0, hv0⟩ := hshape b0 (List.mem_cons_self _ _)
  have hcd : b.drop 14 = c ++ ']' :: d := splitAtChar_append _ _ _ _ h2
  have hcbr : ']' ∉ c := splitAtChar_not_mem _ _ _ _ h2
  have hlcd : b.length - 14 = c.length + 1 + d.length := by
    have hl := congrArg List.length hcd
    simp only [List.length_drop, List.length_append, List.length_cons] at hl
    omega
  have hdlen : d.length ≤ v0.length + rest.flatten.length := by
    obtain ⟨L1, blk, L2, y, hbs_eq, hysuff, hyne, hbeq⟩ :=
      suffix_flatten (b0 :: rest) hbflat hbne
    cases L1 with
    | cons b0x L1x =>
      have hrest : rest = L1x ++ blk :: L2 := by
        simp only [List.cons_append, List.cons.injEq] at hbs_eq
        exact hbs_eq.2
      have hylen : y.length ≤ blk.length := List.IsSuffix.length_le hysuff
      have hrl : rest.flatten.length =
          L1x.flatten.length + blk.length + L2.flatten.length := by
        rw [hrest]
        simp [List.flatten_append]
        omega
      have hblf : b.length = y.length + L2.flatten.length := by
        rw [hbeq]; simp
      omega
    | nil =>
      simp only [List.nil_append, List.cons.injEq] at hbs_eq
      obtain ⟨hblk, hL2⟩ := hbs_eq
      subst hblk
      subst hL2
      rw [hb0] at hysuff
      rcases suffix_append_cases hysuff with hyv | ⟨y2, hy2suff, hy2ne, hyeq⟩
      · have hylen : y.length ≤ v0.length + 1 := by
          have := List.IsSuffix.length_le hyv
          simpa using this
        have hblen : b.length ≤ 1 + v0.length + rest.flatten.length := by
          rw [hbeq]
          simp only [List.length_append]
          omega
        omega
      · have hy2br : ']' ∉ y2 := fun hm => hu0 (hy2suff.subset hm)
        have hbY : b = y2 ++ ']' :: (v0 ++ rest.flatten) := by
          rw [hbeq, hyeq]
          simp
        have hy2len : 14 ≤ y2.length := by
          by_contra hlt
          push_neg at hlt
          have htake : b.take 14 =
              y2 ++ (']' :: (v0 ++ rest.flatten)).take (14 - y2.length) := by
            rw [hbY, List.take_append_eq_append_take,
              List.take_of_length_le (by omega)]
          obtain ⟨m, hm⟩ : ∃ m, 14 - y2.length = m + 1 :=
            ⟨13 - y2.length, by omega⟩
          have hmem : ']' ∈ b.take 14 := by
            rw [htake, hm, List.take_succ_cons]
            exact List.mem_append_right _ (List.mem_cons_self _ _)
          exact secStartB_no_br hbstart hmem
        have hdropb : b.drop 14 = y2.drop 14 ++ ']' :: (v0 ++ rest.flatten) := by
          rw [hbY, List.drop_append_eq_append_drop]
          have h0 : 14 - y2.length = 0 := by omega
          rw [h0, List.drop_zero]
        have huniq := splitChar_unique c d (y2.drop 14) (v0 ++ rest.flatten)
          (hcd.symm.trans hdropb) hcbr
          (fun hm => hy2br (List.drop_subset _ _ hm))
        rw [huniq.2]
        simp
  have hdef : d = e ++ f := findSplit_append _ _ _ _ h3
  have hftok : htokB f = true := findSplit_prop _ _ _ _ h3
  have hfne : f ≠ [] := by
    obtain ⟨r, hr⟩ := htokB_shape hftok
    rw [hr]
    simp
  have hflen : f.length ≤ d.length := by
    rw [hdef]; simp
  have hfflat : f <:+ (b0 :: rest).flatten := by
    have hfd : f <:+ d := ⟨e, hdef.symm⟩
    have hdb14 : d <:+ b.drop 14 := ⟨c ++ [']'], by rw [hcd]; simp⟩
    exact hfd.trans (hdb14.trans ((List.drop_suffix 14 b).trans hbflat))
  obtain ⟨M1, mblk, M2, w, hM_eq, hwsuff, hwne, hfeq⟩ :=
    suffix_flatten (b0 :: rest) hfflat hfne
  have hmblk_mem : mblk ∈ b0 :: rest := by
    rw [hM_eq]
    exact List.mem_append_right _ (List.mem_cons_self _ _)
  obtain ⟨ui, vi, hmblk, hui, hvi⟩ := hshape mblk hmblk_mem
  have hM2_rest : ∀ s ∈ M2, s ∈ rest := by
    intro s hs
    cases M1 with
    | nil =>
      simp only [List.nil_append, List.cons.injEq] at hM_eq
      rw [hM_eq.2]
      exact hs
    | cons q M1x =>
      simp only [List.cons_append, List.cons.injEq] at hM_eq
      rw [hM_eq.2]
      exact List.mem_append_right _ (List.mem_cons_of_mem _ hs)
  rw [hmblk] at hwsuff
  rcases suffix_append_cases hwsuff with hwA | ⟨w2, hw2suff, hw2ne, hweq⟩
  · -- the resumption point lies at or after the close bracket of its block
    rcases suffix_append_cases (show w <:+ [']'] ++ vi from hwA) with
      hwv | ⟨y2, hy2suff, hy2ne, hweq2⟩
    · -- inside the token-free tail: only the final newline can host the token
      by_cases hw4 : 4 ≤ w.length
      · exfalso
        have h4 : htokB (w ++ M2.flatten) = htokB w := htokB_append_4 hw4 _
        rw [hfeq, h4] at hftok
        obtain ⟨pre, hpre⟩ := hwv
        have hwf := hvi pre w hpre.symm
        rw [hwf] at hftok
        simp at hftok
      · push_neg at hw4
        cases hM2 : M2 with
        | nil =>
          exfalso
          rw [hM2] at hfeq
          simp only [List.flatten_nil, List.append_nil] at hfeq
          rw [hfeq, htokB_short hw4] at hftok
          simp at hftok
        | cons nb M2x =>
          have hnb_start : secStartB nb = true := by
            apply hbl
            apply hM2_rest
            rw [hM2]
            exact List.mem_cons_self _ _
          obtain ⟨d1, d2, d3, d4, d5, d6, d7, d8, rr, hnb, _, _, _, _, _, _, _,
            _⟩ := secStartB_shape hnb_start
          rcases w with _ | ⟨w1, wt⟩
          · exact absurd rfl hwne
          rcases wt with _ | ⟨w2c, wt2⟩
          · -- a one-character tail: the resumption gap is exactly a newline
            have hfform : f = w1 :: (nb :: M2x).flatten := by
              rw [hfeq, hM2]; rfl
            have hw1 : w1 = '\n' := by
              obtain ⟨fr, hfr⟩ := htokB_shape hftok
              rw [hfform] at hfr
              simp only [List.cons.injEq] at hfr
              exact hfr.1
            have hcount : (nb :: M2x).length ≤ n - 1 := by
              have h1l := congrArg List.length hM_eq
              simp only [List.length_cons, List.length_append] at h1l
              simp only [List.length_cons] at hbsn
              have hM2l := congrArg List.length hM2
              simp only [List.length_cons] at hM2l
              simp only [List.length_cons]
              omega
            refine ⟨⟨['\n'], nb :: M2x, ?_, hcount, gapSafe_newline, ?_, ?_⟩,
              hn1⟩
            · rw [hfform, hw1]; rfl
            · intro s hs
              apply hshape
              rw [← hM2] at hs
              exact List.mem_cons_of_mem _ (hM2_rest s hs)
            · show ∀ s ∈ M2x, secStartB s = true
              intro s hs
              apply hbl
              apply hM2_rest
              rw [hM2]
              exact List.mem_cons_of_mem _ hs
          · -- longer short tails collide with the head of the next block
            exfalso
            obtain ⟨fr, hfr⟩ := htokB_shape hftok
            rw [hfeq, hM2, hnb] at hfr
            rcases wt2 with _ | ⟨w3, wt3⟩
            · simp only [List.cons_append, List.flatten_cons, List.nil_append,
                List.cons.injEq] at hfr
              exact absurd hfr.2.2.2.1 (by decide)
            · rcases wt3 with _ | ⟨w4, wt4⟩
              · simp only [List.cons_append, List.flatten_cons, List.nil_append,
                  List.cons.injEq] at hfr
                exact absurd hfr.2.2.2.1 (by decide)
              · simp only [List.length_cons] at hw4
                omega
    · -- the resumption point sits exactly on the close bracket: impossible
      exfalso
      have hy2 : y2 = [']'] := suffix_singleton hy2suff hy2ne
      obtain ⟨fr, hfr⟩ := htokB_shape hftok
      rw [hfeq, hweq2, hy2] at hfr
      simp only [List.cons_append, List.nil_append, List.cons.injEq] at hfr
      exact absurd hfr.1 (by decide)
  · -- the resumption point lies inside the bracket-free head of its block
    cases M1 with
    | nil =>
      -- it cannot be the first block: the match close bracket is behind us
      exfalso
      simp only [List.nil_append, List.cons.injEq] at hM_eq
      obtain ⟨hmb, hM2r⟩ := hM_eq
      have hbb : u0 ++ ']' :: v0 = ui ++ ']' :: vi := by
        rw [← hb0, hmb]; exact hmblk
      obtain ⟨hu_eq, hv_eq⟩ := splitChar_unique u0 v0 ui vi hbb hu0 hui
      have hflen2 : f.length =
          w2.length + 1 + vi.length + M2.flatten.length := by
        rw [hfeq, hweq]
        simp only [List.length_append, List.length_cons]
        omega
      have hvlen : vi.length = v0.length := by rw [← hv_eq]
      have hM2f : M2.flatten.length = rest.flatten.length := by rw [← hM2r]
      have hw2len : 1 ≤ w2.length := by
        cases w2 with
        | nil => exact absurd rfl hw2ne
        | cons z zs => simp
      omega
    | cons q M1x =>
      simp only [List.cons_append, List.cons.injEq] at hM_eq
      obtain ⟨hq, hrest_eq⟩ := hM_eq
      have hcount : ((w2 ++ ']' :: vi) :: M2).length ≤ n - 1 := by
        have h1l : rest.length = M1x.length + 1 + M2.length := by
          rw [hrest_eq]
          simp only [List.length_append, List.length_cons]
          omega
        simp only [List.length_cons] at hbsn ⊢
        omega
      refine ⟨⟨[], (w2 ++ ']' :: vi) :: M2, ?_, hcount, gapSafe_nil, ?_, ?_⟩,
        hn1⟩
      · rw [hfeq, hweq]
        simp [List.flatten_cons]
      · intro s hs
        rcases List.mem_cons.mp hs with h | h
        · subst h
          exact ⟨w2, vi, rfl, fun hm => hui (hw2suff.subset hm), hvi⟩
        · exact hshape s (List.mem_cons_of_mem _ (hM2_rest s h))
      · show ∀ s ∈ M2, secStartB s = true
        intro s hs
        exact hbl s (hM2_rest s hs)

/-- A successful first match forces at least one block in the decomposition. -/
theorem decomp_pos {t a b : Str} {n : Nat} (hdec : Decomp t n)
    (h1 : findSplit secStartB t = some (a, b)) : 1 ≤ n := by
  obtain ⟨g, bs, ht, hbsn, hgap, hshape, hblocks⟩ := hdec
  have hbstart : secStartB b = true := findSplit_prop _ _ _ _ h1
  have htab : t = a ++ b := findSplit_append _ _ _ _ h1
  have hb14 : 14 ≤ b.length := secStartB_length hbstart
  have hbne : b ≠ [] := by
    intro h0
    rw [h0] at hb14
    simp at hb14
  have hbflat : b <:+ bs.flatten := by
    have hbsuff : b <:+ g ++ bs.flatten := by
      rw [← ht]; exact ⟨a, htab.symm⟩
    rcases suffix_append_cases hbsuff with h | ⟨y, ⟨x, hxy⟩, hyne, hby⟩
    · exact h
    · have hfalse := hgap x y hxy.symm hyne bs.flatten
      rw [← hby, hbstart] at hfalse
      simp at hfalse
  cases bs with
  | nil =>
    exfalso
    rw [List.flatten_nil] at hbflat
    exact hbne (List.suffix_nil.mp hbflat)
  | cons b0 rest =>
    simp only [List.length_cons] at hbsn
    omega

/-- The scanner respects the decomposition bound: at most one match per
block. -/
theorem scanSecsF_decomp_le :
    ∀ (fuel : Nat) (t : Str) (n : Nat), Decomp t n →
      (scanSecsF fuel t).length ≤ n := by
  intro fuel
  induction fuel with
  | zero => intro t n hdec; simp [scanSecsF]
  | succ fuel ih =>
    intro t n hdec
    cases hfs : findSplit secStartB t with
    | none => rw [scanSecsF_none hfs]; simp
    | some ab =>
      obtain ⟨a, b⟩ := ab
      cases hsp : splitAtChar ']' (b.drop 14) with
      | none => rw [scanSecsF_brNone hfs hsp]; simp
      | some cd =>
        obtain ⟨c, d⟩ := cd
        cases hht : findSplit htokB d with
        | none =>
          rw [scanSecsF_last hfs hsp hht]
          simpa using decomp_pos hdec hfs
        | some ef =>
          obtain ⟨e, f⟩ := ef
          rw [scanSecsF_cons hfs hsp hht]
          obtain ⟨hdf, hn1⟩ := decomp_step hdec hfs hsp hht
          have hrec := ih f (n - 1) hdf
          simp only [List.length_cons]
          omega

theorem scanSecs_decomp_le {t : Str} {n : Nat} (hdec : Decomp t n) :
    (scanSecs t).length ≤ n :=
  scanSecsF_decomp_le _ t n hdec

theorem blocksOK_of_all {bs : List Str} (h : ∀ s ∈ bs, secStartB s = true) :
    BlocksOK bs := by
  cases bs with
  | nil => trivial
  | cons b r => exact fun s hs => h s (List.mem_cons_of_mem _ hs)

end StopDigest

/-! ## Claim theorems -/

open StopDigest PreToolUse ProjectStatus

/-- C9.  For every attempt count `n ≥ 1` and jitter draw `r ∈ [0, 1)`, the
computed backoff equals
`clamp(BACKOFF_BASE · 2^(n−1) · (1 + j), BACKOFF_BASE, BACKOFF_CAP)` for
some `|j| ≤ 0.125`, hence lies in `[BACKOFF_BASE, BACKOFF_CAP]`; and a
drained job whose elapsed time since `last_attempt` is below its backoff is
counted as `skipped_backoff`, leaving `processed` and every other part of
the drain state unchanged. -/
theorem c9_backoff_formula_and_skip :
    (∀ (n : Int) (r : ℚ), 1 ≤ n → 0 ≤ r → r < 1 →
      ∃ j : ℚ, |j| ≤ 1 / 8 ∧
        computeBackoffSeconds n r =
          min (max (BACKOFF_BASE * 2 ^ (n - 1).toNat * (1 + j)) BACKOFF_BASE)
            BACKOFF_CAP ∧
        BACKOFF_BASE ≤ computeBackoffSeconds n r ∧
        computeBackoffSeconds n r ≤ BACKOFF_CAP) ∧
    (∀ (st : DrainState) (j : Job) (e : ℚ), j.elapsed = some e →
      e < computeBackoffSeconds j.attemptCount j.rand →
      drainStep st (.good j) =
        { st with skippedBackoff := st.skippedBackoff + 1 }) := by
  constructor
  · intro n r hn hr0 hr1
    have hred : computeBackoffSeconds n r =
        min (max (BACKOFF_BASE * 2 ^ (n - 1).toNat +
            BACKOFF_BASE * 2 ^ (n - 1).toNat * (1 / 4) * (r - 1 / 2))
          BACKOFF_BASE) BACKOFF_CAP := by
      unfold computeBackoffSeconds
      rw [if_neg (by omega)]
    refine ⟨(1 / 4) * (r - 1 / 2), ?_, ?_, ?_, ?_⟩
    · rw [abs_le]
      constructor <;> nlinarith
    · rw [hred]
      have : BACKOFF_BASE * 2 ^ (n - 1).toNat +
          BACKOFF_BASE * 2 ^ (n - 1).toNat * (1 / 4) * (r - 1 / 2) =
          BACKOFF_BASE * 2 ^ (n - 1).toNat * (1 + (1 / 4) * (r - 1 / 2)) := by
        ring
      rw [this]
    · rw [hred]
      exact le_min (le_max_right _ _) (by norm_num [BACKOFF_BASE, BACKOFF_CAP])
    · rw [hred]
      exact min_le_right _ _
  · intro st j e he hlt
    have hgood : drainStep st (.good j) =
        (match j.elapsed with
         | some e =>
           if e < computeBackoffSeconds j.attemptCount j.rand then
             { st with skippedBackoff := st.skippedBackoff + 1 }
           else processGoodJob st j
         | none => processGoodJob st j) := rfl
    rw [hgood, he]
    simp [hlt]

/-- Witness for C9 at `n = 3`, `r = 1/2` and a concrete backoff-bound job. -/
theorem c9_backoff_formula_and_skip_witness :
    (∃ j : ℚ, |j| ≤ 1 / 8 ∧
      computeBackoffSeconds 3 (1 / 2) =
        min (max (BACKOFF_BASE * 2 ^ (3 - 1 : Int).toNat * (1 + j)) BACKOFF_BASE)
          BACKOFF_CAP ∧
      BACKOFF_BASE ≤ computeBackoffSeconds 3 (1 / 2) ∧
      computeBackoffSeconds 3 (1 / 2) ≤ BACKOFF_CAP) ∧
    drainStep initDrain (.good ⟨1, some 0, 1 / 2, .okResult⟩) =
      { initDrain with skippedBackoff := initDrain.skippedBackoff + 1 } :=
  ⟨c9_backoff_formula_and_skip.1 3 (1 / 2) (by norm_num) (by norm_num) (by norm_num),
   c9_backoff_formula_and_skip.2 initDrain ⟨1, some 0, 1 / 2, .okResult⟩ 0 rfl
     (by norm_num [computeBackoffSeconds, BACKOFF_BASE, BACKOFF_CAP])⟩

/-- C1.  Every job processed in one drain pass is classified exactly as:
success deletes the job file; a missing-credentials skip or a retryable
error undoes the attempt increment and requeues with status `queued`; any
other (fatal) outcome keeps the incremented `attempt_count` and moves the
file to the dead directory iff `attempt_count ≥ MAX_ATTEMPTS`, otherwise
requeues with status `queued`; in particular a job with
`MAX_ATTEMPTS − 1` prior attempts dies exactly on its next fatal attempt. -/
theorem c1_drain_outcome_classification (env : DrainEnv)
    (entries : List QueueEntry) (j : Job) (out : JobOutcome)
    (hmem : (j, out) ∈ (processIngestQueue env entries).records) :
    out = processJobAttempt j.attemptCount j.result ∧
    (resultOk j.result = true → out = .deleted) ∧
    ((resultMissingCreds j.result = true ∨
      isRetryableError (errText j.result) = true) →
      ∃ msg, out = .requeued j.attemptCount (str "queued") msg) ∧
    (resultOk j.result = false → resultMissingCreds j.result = false →
     isRetryableError (errText j.result) = false →
      ((out = .movedDead (j.attemptCount + 1) ↔
          MAX_ATTEMPTS ≤ j.attemptCount + 1) ∧
       (j.attemptCount + 1 < MAX_ATTEMPTS →
         out = .requeued (j.attemptCount + 1) (str "queued")
           (fatalError j.result)) ∧
       (j.attemptCount = MAX_ATTEMPTS - 1 →
         out = .movedDead MAX_ATTEMPTS))) := by
  have hout := recordsOk_processIngestQueue env entries j out hmem
  obtain ⟨h1, h2, h3⟩ := processJobAttempt_classify j.attemptCount j.result
  subst hout
  exact ⟨rfl, h1, h2, h3⟩

/-- Witness for C1: one fatal-error job with five prior attempts is moved to
the dead directory by the drain pass. -/
theorem c1_drain_outcome_classification_witness :
    (⟨5, none, 0, .errorResult (str "boom")⟩,
      JobOutcome.movedDead 6) ∈
        (processIngestQueue ⟨true, 3, fun _ => false⟩
          [.good ⟨5, none, 0, .errorResult (str "boom")⟩]).records ∧
    JobOutcome.movedDead 6 = JobOutcome.movedDead MAX_ATTEMPTS := by
  have hrec : (processIngestQueue ⟨true, 3, fun _ => false⟩
      [.good ⟨5, none, 0, .errorResult (str "boom")⟩]).records =
      [(⟨5, none, 0, .errorResult (str "boom")⟩, JobOutcome.movedDead 6)] := rfl
  have hmem : (⟨5, none, 0, .errorResult (str "boom")⟩,
      JobOutcome.movedDead 6) ∈
        (processIngestQueue ⟨true, 3, fun _ => false⟩
          [.good ⟨5, none, 0, .errorResult (str "boom")⟩]).records := by
    rw [hrec]
    exact List.mem_singleton.mpr rfl
  exact ⟨hmem,
    (c1_drain_outcome_classification ⟨true, 3, fun _ => false⟩
        [.good ⟨5, none, 0, .errorResult (str "boom")⟩]
        ⟨5, none, 0, .errorResult (str "boom")⟩
        (JobOutcome.movedDead 6) hmem).2.2.2
        (by decide) (by decide) (by decide) |>.2.2 (by decide)⟩

/-- C2.  Four `Read` invocations of the same existing file within a 10-turn
window while its content hash stays unchanged: the first exits 0, the second
and third exit 1 (warnings), the fourth exits 2 with a stderr message naming
the file and containing "was already read and hasn't changed"; and a read
observing a changed hash resets the duplicate counter to 0. -/
theorem c2_duplicate_read_escalation (fp : Str) (hash : Nat) (c0 : Cache)
    (t1 t2 t3 t4 : Int)
    (hc0 : ∀ kv ∈ c0, kv.1 ≠ fp)
    (h12 : t1 < t2) (h23 : t2 < t3) (h34 : t3 < t4) (hwin : t4 - t1 ≤ 10) :
    let s1 := checkDuplicateRead fp true hash c0 t1
    let s2 := checkDuplicateRead fp true hash s1.2 t2
    let s3 := checkDuplicateRead fp true hash s2.2 t3
    let s4 := checkDuplicateRead fp true hash s3.2 t4
    readExitCode s1.1 = 0 ∧ readExitCode s2.1 = 1 ∧ readExitCode s3.1 = 1 ∧
    readExitCode s4.1 = 2 ∧
    s4.1 = .block (blockMessage fp 3) ∧
    fp <:+: blockMessage fp 3 ∧ dupPhrase <:+: blockMessage fp 3 ∧
    (∀ (c : Cache) (t : Int) (e : CacheEntry) (newHash : Nat),
      lookupCache (cleanCache c t) fp = some e → e.hash ≠ newHash →
      checkDuplicateRead fp true newHash c t =
        (.allow, setCache (cleanCache c t) fp ⟨newHash, t, 0⟩)) := by
  intro s1 s2 s3 s4
  have k1 : KeysNe (cleanCache c0 t1) fp := keysNe_cleanCache hc0 t1
  have k2 : KeysNe (cleanCache (cleanCache c0 t1) t2) fp :=
    keysNe_cleanCache k1 t2
  have k3 : KeysNe (cleanCache (cleanCache (cleanCache c0 t1) t2) t3) fp :=
    keysNe_cleanCache k2 t3
  have hs1 : s1 = (.allow, cleanCache c0 t1 ++ [(fp, ⟨hash, t1, 0⟩)]) :=
    checkDup_fresh hc0 hash t1
  have hs2 : s2 = (.warn (warnMessage fp 1 (t2 - t1)),
      cleanCache (cleanCache c0 t1) t2 ++ [(fp, ⟨hash, t1, 1⟩)]) := by
    show checkDuplicateRead fp true hash s1.2 t2 = _
    rw [hs1]
    rw [checkDup_hit k1 hash t1 t2 0 (by unfold CACHE_TURNS; omega)]
    norm_num
  have hs3 : s3 = (.warn (warnMessage fp 2 (t3 - t1)),
      cleanCache (cleanCache (cleanCache c0 t1) t2) t3 ++
        [(fp, ⟨hash, t1, 2⟩)]) := by
    show checkDuplicateRead fp true hash s2.2 t3 = _
    rw [hs2]
    rw [checkDup_hit k2 hash t1 t3 1 (by unfold CACHE_TURNS; omega)]
    norm_num
  have hs4 : s4 = (.block (blockMessage fp 3),
      cleanCache (cleanCache (cleanCache (cleanCache c0 t1) t2) t3) t4 ++
        [(fp, ⟨hash, t1, 3⟩)]) := by
    show checkDuplicateRead fp true hash s3.2 t4 = _
    rw [hs3]
    rw [checkDup_hit k3 hash t1 t4 2 (by unfold CACHE_TURNS; omega)]
    norm_num
  refine ⟨by rw [hs1]; rfl, by rw [hs2]; rfl, by rw [hs3]; rfl,
    by rw [hs4]; rfl, by rw [hs4],
    ⟨blockMsgPre, blockMsgTail 3, by simp [blockMessage, List.append_assoc]⟩,
    ?_, ?_⟩
  · refine ⟨blockMsgPre ++ fp ++ str "\nDuplicate read attempts: " ++
      str (Nat.repr 3) ++ str "\n\n" ++ str "This file ",
      str ".\n\n" ++
        str "Main Agent should:\n1. Reference the previous read content\n" ++
        str "2. Use Grep to search for specific patterns\n" ++
        str "3. Use Read with offset/limit for specific sections\n\n" ++
        eqLine ++ str "\n", ?_⟩
    simp [blockMessage, blockMsgTail, List.append_assoc]
  · intro c t e newHash hlook hne
    have hred : checkDuplicateRead fp true newHash c t =
        (match lookupCache (cleanCache c t) fp with
          | some cached =>
            if cached.hash = newHash ∧ t - cached.turn ≤ CACHE_TURNS then
              if cached.duplicateAttempts + 1 ≥ 3 then
                (ReadCheck.block (blockMessage fp (cached.duplicateAttempts + 1)),
                  setCache (cleanCache c t) fp
                    { cached with duplicateAttempts := cached.duplicateAttempts + 1 })
              else
                (ReadCheck.warn
                   (warnMessage fp (cached.duplicateAttempts + 1) (t - cached.turn)),
                  setCache (cleanCache c t) fp
                    { cached with duplicateAttempts := cached.duplicateAttempts + 1 })
            else (.allow, setCache (cleanCache c t) fp ⟨newHash, t, 0⟩)
          | none => (.allow, setCache (cleanCache c t) fp ⟨newHash, t, 0⟩)) := rfl
    rw [hred, hlook]
    simp only [ite_eq_right_iff]
    intro hx
    exact absurd hx.1 hne

/-- Witness for C2 at `src/x.ts`, hash 7, empty cache and turns 1–4. -/
theorem c2_duplicate_read_escalation_witness :
    let s1 := checkDuplicateRead (str "src/x.ts") true 7 [] 1
    let s2 := checkDuplicateRead (str "src/x.ts") true 7 s1.2 2
    let s3 := checkDuplicateRead (str "src/x.ts") true 7 s2.2 3
    let s4 := checkDuplicateRead (str "src/x.ts") true 7 s3.2 4
    readExitCode s1.1 = 0 ∧ readExitCode s2.1 = 1 ∧ readExitCode s3.1 = 1 ∧
    readExitCode s4.1 = 2 ∧
    s4.1 = .block (blockMessage (str "src/x.ts") 3) ∧
    str "src/x.ts" <:+: blockMessage (str "src/x.ts") 3 ∧
    dupPhrase <:+: blockMessage (str "src/x.ts") 3 ∧
    (∀ (c : Cache) (t : Int) (e : CacheEntry) (newHash : Nat),
      lookupCache (cleanCache c t) (str "src/x.ts") = some e →
      e.hash ≠ newHash →
      checkDuplicateRead (str "src/x.ts") true newHash c t =
        (.allow, setCache (cleanCache c t) (str "src/x.ts") ⟨newHash, t, 0⟩)) :=
  c2_duplicate_read_escalation (str "src/x.ts") 7 [] 1 2 3 4
    (by intro kv hm; simp at hm) (by omega) (by omega) (by omega) (by omega)

/-- C3 counterexample.  `docs/deploy_notes.md` has a basename equal to none
of the six allow-listed names and there is no approval store, so the claim
says the write is hard-blocked; the code allows it, because the allow-list
check is a substring test on the basename (`notes.md` occurs inside
`deploy_notes.md`). -/
theorem c3_counterexample_substring_allowlist :
    (mdGate (str "docs/deploy_notes.md") none 0).1 = true ∧
    (∀ a ∈ allowedAutoCreate,
      lowerStr (basenameL (str "docs/deploy_notes.md")) ≠ a) := by
  decide

/-- C3 amended.  A `.md` write is allowed outright iff its lower-cased
basename contains one of the six allow-listed names as a substring;
otherwise it is allowed only on a fresh (≤ 5 min) approval matching by
path suffix, basename equality or path substring — consuming the matched
entry — or on the unconsumed `*PERMISSIVE*` sentinel, and is hard-blocked
(exit 2) in every other case. -/
theorem c3_amended_md_gate (filePath : Str) (store : Option MdState)
    (now : Int) :
    (allowedAutoCreate.any
        (fun a => containsL a (lowerStr (basenameL filePath))) = true →
      mdGate filePath store now = (true, store)) ∧
    (allowedAutoCreate.any
        (fun a => containsL a (lowerStr (basenameL filePath))) = false →
      (store = none →
        mdGate filePath store now = (false, none) ∧
        mdExitCode (mdGate filePath store now).1 = 2) ∧
      (∀ st, store = some st →
        (st.timestamp = none →
          mdGate filePath store now = (false, some st) ∧
          mdExitCode (mdGate filePath store now).1 = 2) ∧
        (∀ ts, st.timestamp = some ts → ¬ now - ts ≤ 5 * 60 →
          mdGate filePath store now = (false, some st) ∧
          mdExitCode (mdGate filePath store now).1 = 2) ∧
        (∀ ts, st.timestamp = some ts → now - ts ≤ 5 * 60 →
          (permissiveSentinel ∈ st.approvedFiles →
            mdGate filePath store now = (true, some st)) ∧
          (permissiveSentinel ∉ st.approvedFiles →
            (∀ a,
              st.approvedFiles.find?
                  (approvalMatches filePath (lowerStr (basenameL filePath))) =
                some a →
              a ∈ st.approvedFiles ∧
              approvalMatches filePath (lowerStr (basenameL filePath)) a =
                true ∧
              mdGate filePath store now =
                (true, some { st with
                  approvedFiles := st.approvedFiles.erase a })) ∧
            (st.approvedFiles.find?
                (approvalMatches filePath (lowerStr (basenameL filePath))) =
                none →
              (∀ a ∈ st.approvedFiles,
                approvalMatches filePath (lowerStr (basenameL filePath)) a =
                  false) ∧
              mdGate filePath store now = (false, some st) ∧
              mdExitCode (mdGate filePath store now).1 = 2))))) := by
  constructor
  · intro hsys
    simp [mdGate, hsys]
  · intro hsys
    refine ⟨?_, ?_⟩
    · intro hnone
      subst hnone
      simp [mdGate, hsys, mdExitCode]
    · intro st hsome
      subst hsome
      refine ⟨?_, ?_, ?_⟩
      · intro hts
        simp [mdGate, hsys, hts, mdExitCode]
      · intro ts hts hstale
        have hstaleN : ¬ now ≤ 300 + ts := by omega
        simp [mdGate, hsys, hts, hstaleN, mdExitCode]
      · intro ts hts hfresh
        have hfreshN : now ≤ 300 + ts := by omega
        constructor
        · intro hperm
          simp [mdGate, hsys, hts, hfreshN, hperm]
        · intro hperm
          constructor
          · intro a hfind
            exact ⟨List.mem_of_find?_eq_some hfind,
              List.find?_some hfind,
              by simp [mdGate, hsys, hts, hfreshN, hperm, hfind]⟩
          · intro hfind
            refine ⟨fun a ha => ?_, ?_⟩
            · have := List.find?_eq_none.mp hfind a ha
              simpa using this
            · simp [mdGate, hsys, hts, hfreshN, hperm, hfind, mdExitCode]

/-- Witness for C3 at a fresh single-entry approval store matching
`docs/api.md` by path suffix: the write is allowed and the entry consumed. -/
theorem c3_amended_md_gate_witness :
    (str "api.md") ∈ [str "api.md"] ∧
    approvalMatches (str "docs/api.md")
      (lowerStr (basenameL (str "docs/api.md"))) (str "api.md") = true ∧
    mdGate (str "docs/api.md")
        (some ⟨some 0, [str "api.md"]⟩) 60 =
      (true,
        some (⟨some 0, [str "api.md"].erase (str "api.md")⟩ : MdState)) :=
  ((c3_amended_md_gate (str "docs/api.md")
      (some ⟨some 0, [str "api.md"]⟩) 60).2 (by decide) |>.2
      ⟨some 0, [str "api.md"]⟩ rfl |>.2.2 0 rfl (by omega) |>.2
      (by decide) |>.1 (str "api.md") (by decide))

/-- C4 counterexample.  A digest with an empty (present) agent, task `t` and
no content serialises to 43 characters, yet the codec rejects it with reason
`insufficient_content` — not `insufficient_length` as the claim requires for
every text shorter than 50 characters. -/
theorem c4_counterexample_earlier_gate :
    (buildDigestText ⟨some [], some (str "t"), none, none, none, none, none,
        none, none, none, none, none, none, none, none, [], [], [], [],
        []⟩).length < MIN_DIGEST_LENGTH ∧
    ingestDigestToVector true ⟨some [], some (str "t"), none, none, none,
        none, none, none, none, none, none, none, none, none, none, [], [],
        [], [], []⟩ =
      .skippedMsg
        (str "Quality gate failed: DIGEST must have summary, problem+solution, or decisions")
        (some (str "insufficient_content")) ∧
    some (str "insufficient_content") ≠ some (str "insufficient_length") := by
  refine ⟨by decide, rfl, by decide⟩

/-- C4 amended.  Every DIGEST accepted by the codec serialises to at least
50 characters; a digest whose built text is shorter than 50 characters is
always rejected (with the reason of the first failing gate); and whenever
the credential check and content gates 1–3 pass, the built text is already
at least 50 characters long, so the `insufficient_length` rejection is
unreachable and the digest is ingested. -/
theorem c4_amended_length_gate (credsOk : Bool) (d : Digest) :
    (∀ t, ingestDigestToVector credsOk d = .ingested t →
      t = buildDigestText d ∧ MIN_DIGEST_LENGTH ≤ t.length) ∧
    ((buildDigestText d).length < MIN_DIGEST_LENGTH →
      ∃ msg reason, ingestDigestToVector credsOk d = .skippedMsg msg reason) ∧
    (credsOk = true → contentGatesPass d = true →
      MIN_DIGEST_LENGTH ≤ (buildDigestText d).length ∧
      ingestDigestToVector credsOk d = .ingested (buildDigestText d)) := by
  refine ⟨?_, ?_, ?_⟩
  · intro t h
    unfold ingestDigestToVector at h
    split at h
    · exact absurd h (by simp)
    · split at h
      · exact absurd h (by simp)
      · split at h
        · exact absurd h (by simp)
        · split at h
          · exact absurd h (by simp)
          · dsimp only at h
            split at h
            · exact absurd h (by simp)
            · rename_i hlen
              simp only [IngestOutcome.ingested.injEq] at h
              push_neg at hlen
              refine ⟨h.symm, ?_⟩
              rw [h.symm]
              omega
  · intro hlt
    unfold ingestDigestToVector
    split
    · exact ⟨_, _, rfl⟩
    · split
      · exact ⟨_, _, rfl⟩
      · split
        · exact ⟨_, _, rfl⟩
        · split
          · exact ⟨_, _, rfl⟩
          · dsimp only
            rw [if_pos hlt]
            exact ⟨_, _, rfl⟩
  · intro hcreds hg
    have hlen := buildDigestText_length_ge d hg
    refine ⟨hlen, ?_⟩
    have hgates := hg
    unfold contentGatesPass at hgates
    simp only [Bool.and_eq_true] at hgates
    obtain ⟨⟨hg1, hg2⟩, hg3⟩ := hgates
    unfold ingestDigestToVector
    rw [if_neg (by simp [hcreds]), if_neg (by simp [hg1]),
      if_neg (by simpa using hg2),
      if_neg (by simpa using hg3), if_neg (by omega)]

/-- Witness for C4 at a digest carrying an agent, a task id and a summary:
the content gates pass, the text is at least 50 characters, and the digest
is ingested. -/
theorem c4_amended_length_gate_witness :
    MIN_DIGEST_LENGTH ≤ (buildDigestText ⟨some (str "RC"), some (str "t-1"),
      some (str "Fixed the parser"), none, none, none, none, none, none,
      none, none, none, none, none, none, [], [], [], [], []⟩).length ∧
    ingestDigestToVector true ⟨some (str "RC"), some (str "t-1"),
        some (str "Fixed the parser"), none, none, none, none, none, none,
        none, none, none, none, none, none, [], [], [], [], []⟩ =
      .ingested (buildDigestText ⟨some (str "RC"), some (str "t-1"),
        some (str "Fixed the parser"), none, none, none, none, none, none,
        none, none, none, none, none, none, [], [], [], [], []⟩) :=
  (c4_amended_length_gate true ⟨some (str "RC"), some (str "t-1"),
      some (str "Fixed the parser"), none, none, none, none, none, none,
      none, none, none, none, none, none, [], [], [], [], []⟩).2.2
    rfl (by decide)

/-- C5 counterexample.  A drain pass that skips two jobs for missing
vector-RAG credentials appends the credentials warning twice, refuting
"at most once per drain pass". -/
theorem c5_counterexample_two_warnings :
    (processIngestQueue ⟨true, 3, fun _ => false⟩
        [.good ⟨0, none, 0,
            .skippedResult (str "Vector RAG not configured yet (setup in progress)")⟩,
         .good ⟨0, none, 0,
            .skippedResult (str "Vector RAG not configured yet (setup in progress)")⟩]).warnings
      = [.missingCreds, .missingCreds] ∧
    ¬ List.count Warn.missingCreds [Warn.missingCreds, Warn.missingCreds] ≤ 1 :=
  ⟨rfl, by decide⟩

/-- Auxiliary invariant for C5: the credentials warning has been appended
once per job counted in `skipped_no_creds`. -/
def WarnPerSkip (st : DrainState) : Prop :=
  st.warnings.count .missingCreds = st.skippedNoCreds

theorem warnPerSkip_processGoodJob {st : DrainState} (h : WarnPerSkip st)
    (j : Job) : WarnPerSkip (processGoodJob st j) := by
  unfold WarnPerSkip at *
  unfold processGoodJob
  split
  · exact h
  · split
    · simp [List.count_append, h]
    · split
      · exact h
      · exact h

theorem warnPerSkip_drainStep {st : DrainState} (h : WarnPerSkip st)
    (e : QueueEntry) : WarnPerSkip (drainStep st e) := by
  cases e with
  | corrupt => exact h
  | good j =>
    have hgood : drainStep st (.good j) =
        (match j.elapsed with
         | some e =>
           if e < computeBackoffSeconds j.attemptCount j.rand then
             { st with skippedBackoff := st.skippedBackoff + 1 }
           else processGoodJob st j
         | none => processGoodJob st j) := rfl
    rw [hgood]
    cases j.elapsed with
    | none => exact warnPerSkip_processGoodJob h j
    | some e =>
      dsimp only
      split
      · exact h
      · exact warnPerSkip_processGoodJob h j

theorem warnPerSkip_drainLoop (env : DrainEnv) :
    ∀ (entries : List QueueEntry) (k : Nat) (st : DrainState),
      WarnPerSkip st → WarnPerSkip (drainLoop env entries k st) := by
  intro entries
  induction entries with
  | nil => intro k st h; exact h
  | cons e rest ih =>
    intro k st h
    unfold drainLoop
    split
    · exact h
    · exact ih (k + 1) (drainStep st e) (warnPerSkip_drainStep h e)

/-- C5 amended.  The missing-credentials warning is appended once per job
skipped for missing credentials: over any drain pass its number of
occurrences in `WARNINGS.md` equals the `skipped_no_creds` counter (so a
pass that skips several jobs warns several times, not at most once). -/
theorem c5_amended_warning_once_per_skipped_job (env : DrainEnv)
    (entries : List QueueEntry) :
    (processIngestQueue env entries).warnings.count .missingCreds =
      (processIngestQueue env entries).skippedNoCreds := by
  unfold processIngestQueue
  split
  · exact warnPerSkip_drainLoop env entries 0 initDrain (by simp [WarnPerSkip, initDrain])
  · simp [initDrain]

/-- C7 counterexample.  A digest listing the same path twice makes
`refresh_wsi` append two records for that path (the `seen` map is never
updated during the loop), so the refreshed WSI paths are not unique. -/
theorem c7_counterexample_duplicate_paths :
    (refreshWsi [] [⟨some (str "a"), none, none⟩, ⟨some (str "a"), none, none⟩]
        none (str "T")).map WsiItem.path = [str "a", str "a"] ∧
    ¬ ((refreshWsi [] [⟨some (str "a"), none, none⟩,
        ⟨some (str "a"), none, none⟩] none (str "T")).map WsiItem.path).Nodup :=
  ⟨rfl, by decide⟩

/-- C7 amended.  After any refresh — whatever the inputs — the WSI holds at
most `WSI_CAP` items and is a suffix of the full deduplicate-and-append
result (newest entries preserved on overflow); path uniqueness additionally
holds provided the prior WSI paths are unique, the digest lists each
(nonempty) path once, and the RAG suggestions are duplicate-free and
disjoint from the digest paths. -/
theorem c7_amended_wsi_invariants (items : List WsiItem)
    (digestFiles : List FileRef) (ragPaths : Option (List Str)) (ts : Str) :
    (refreshWsi items digestFiles ragPaths ts).length ≤ WSI_CAP ∧
    refreshWsi items digestFiles ragPaths ts <:+
      refreshWsiFull items digestFiles ragPaths ts ∧
    ((items.map WsiItem.path).Nodup →
      (filePathsOf digestFiles).Nodup →
      (ragPathsOf ragPaths).Nodup →
      (∀ p ∈ ragPathsOf ragPaths, p ∉ filePathsOf digestFiles) →
      ((refreshWsi items digestFiles ragPaths ts).map WsiItem.path).Nodup) := by
  have hsub : refreshWsi items digestFiles ragPaths ts <:+
      refreshWsiFull items digestFiles ragPaths ts := by
    simp only [refreshWsi]
    split
    · exact List.drop_suffix _ _
    · exact List.suffix_refl _
  refine ⟨?_, hsub, ?_⟩
  · simp only [refreshWsi]
    split
    · simp
      omega
    · rename_i hle
      push_neg at hle
      simpa using hle
  · intro H1 H3 H4 H5
    obtain ⟨extra, hmap, hnd, hdisj⟩ :=
      refreshWsiFull_paths items digestFiles ragPaths ts H3 H4 H5
    have hfullNodup :
        ((refreshWsiFull items digestFiles ragPaths
            ts).map WsiItem.path).Nodup := by
      rw [hmap, List.nodup_append]
      exact ⟨H1, hnd, fun p hp hq => hdisj p hq hp⟩
    exact hfullNodup.sublist (hsub.sublist.map WsiItem.path)

/-- Witness for C7 at an empty WSI and a one-file digest: the cap bound
holds outright and the conditional uniqueness conclusion is discharged at
concrete clean inputs. -/
theorem c7_amended_wsi_invariants_witness :
    (refreshWsi [] [⟨some (str "a"), none, none⟩] none (str "T")).length ≤
      WSI_CAP ∧
    ((refreshWsi [] [⟨some (str "a"), none, none⟩] none
        (str "T")).map WsiItem.path).Nodup :=
  ⟨(c7_amended_wsi_invariants [] [⟨some (str "a"), none, none⟩] none
      (str "T")).1,
   (c7_amended_wsi_invariants [] [⟨some (str "a"), none, none⟩] none
      (str "T")).2.2 (by decide) (by decide) (by decide) (by decide)⟩

/-- C6 (code bug).  Running the status update twice with identical inputs
(fixed collected status, hence fixed rendered block) is not idempotent: the
removal regex strips only the tag span and leaves the newlines that the
insertion added, so the second run produces a longer file and rewrites it,
contradicting both the claim and the idempotence stated in the module
docstring of `project_status.py`. -/
theorem c6_second_update_rewrites :
    (updateClaudeMd
        (renderedBlock
          [str "Project: p | Last Update: T | Data: stale (queue=0)"])
        (updateClaudeMd
          (renderedBlock
            [str "Project: p | Last Update: T | Data: stale (queue=0)"])
          (str "HEAD\n</context_engineering>\nTAIL\n")).1).2 = true ∧
    (updateClaudeMd
        (renderedBlock
          [str "Project: p | Last Update: T | Data: stale (queue=0)"])
        (updateClaudeMd
          (renderedBlock
            [str "Project: p | Last Update: T | Data: stale (queue=0)"])
          (str "HEAD\n</context_engineering>\nTAIL\n")).1).1 ≠
      (updateClaudeMd
        (renderedBlock
          [str "Project: p | Last Update: T | Data: stale (queue=0)"])
        (str "HEAD\n</context_engineering>\nTAIL\n")).1 := by
  exact ⟨rfl, by decide⟩

/-- C10.  On every stdin payload the Stop coordinator exits 0 or 1, never
with the blocking code 2. -/
theorem c10_stop_never_blocks (e : StopRun) :
    (stopMainExit e = 0 ∨ stopMainExit e = 1) ∧ stopMainExit e ≠ 2 := by
  unfold stopMainExit
  refine ⟨?_, ?_⟩ <;>
    · split
      · simp
      · split
        · simp
        · split
          · simp
          · split
            · simp
            · split
              · simp
              · split
                · simp
                · split
                  · simp
                  · split <;> simp

/-- C8.  Rotation invariants of `rotate_notes`: re-scanning the rewritten
journal with the digest header regex finds at most 20 sections, whatever the
input journal contained; at 20 or fewer sections the rotation is a no-op
(journal returned unchanged, no archive write); above 20 the oldest
`count - 20` sections are all written to the archive (each one appears in
the archive text) and the journal keeps exactly the newest 20. -/
theorem c8_rotation_bound (text : Str) :
    (scanSecs (rotateNotes text).1).length ≤ 20 ∧
    ((scanSecs text).length ≤ 20 → rotateNotes text = (text, none)) ∧
    (20 < (scanSecs text).length →
      (rotateNotes text).1 = NOTES_HEADER ++
        ((scanSecs text).drop ((scanSecs text).length - 20)).flatten ∧
      (rotateNotes text).2 = some (ARCHIVE_HEADER ++
        ((scanSecs text).take ((scanSecs text).length - 20)).flatten) ∧
      ∀ s ∈ (scanSecs text).take ((scanSecs text).length - 20),
        s <:+: ARCHIVE_HEADER ++
          ((scanSecs text).take ((scanSecs text).length - 20)).flatten) := by
  by_cases hle : (scanSecs text).length ≤ 20
  · have hrot : rotateNotes text = (text, none) := by
      simp only [rotateNotes]
      rw [if_pos hle]
    refine ⟨?_, fun _ => hrot, fun hgt => absurd hgt (by omega)⟩
    rw [hrot]
    exact hle
  · push_neg at hle
    have hrot : rotateNotes text =
        (NOTES_HEADER ++
          ((scanSecs text).drop ((scanSecs text).length - 20)).flatten,
         some (ARCHIVE_HEADER ++
          ((scanSecs text).take ((scanSecs text).length - 20)).flatten)) := by
      simp only [rotateNotes]
      rw [if_neg (by omega)]
    refine ⟨?_, fun hle2 => absurd hle2 (by omega), fun _ => ⟨?_, ?_, ?_⟩⟩
    · rw [hrot]
      refine scanSecs_decomp_le
        ⟨NOTES_HEADER, (scanSecs text).drop ((scanSecs text).length - 20),
          rfl, ?_, gapSafe_header, ?_, ?_⟩
      · simp only [List.length_drop]
        omega
      · intro s hs
        exact (scanSecs_sections (List.drop_subset _ _ hs)).1
      · exact blocksOK_of_all fun s hs =>
          (scanSecs_sections (List.drop_subset _ _ hs)).2
    · rw [hrot]
    · rw [hrot]
    · intro s hs
      obtain ⟨l1, l2, hsplit⟩ := List.append_of_mem hs
      refine ⟨ARCHIVE_HEADER ++ l1.flatten, l2.flatten, ?_⟩
      rw [hsplit]
      simp [List.flatten_append, List.flatten_cons]

/-- Witness for the C8 theorem: a two-section journal is left untouched by
rotation (no archive write). -/
theorem c8_rotation_bound_witness :
    rotateNotes (str "## [2024-01-01] a\n## [2024-01-02] b\n") =
      (str "## [2024-01-01] a\n## [2024-01-02] b\n", none) :=
  (c8_rotation_bound (str "## [2024-01-01] a\n## [2024-01-02] b\n")).2.1
    (by decide)

end ClaudeAgents
